import Mathlib

/-!
Formal model of `scripts/update_doc_versions.py`.

The script reads a version string from `cfg/app.yaml` and rewrites Markdown
files: the literal placeholder token `{Version}` is replaced by the version,
and existing annotation lines `**Version**: vX.Y.Z` /
`**Version / 버전**: vX.Y.Z` get their numeric suffix replaced.

Strings are modelled as `List Char`.  The regular expressions used by the
script are deterministic: every `\s*` and `\d+` in them is followed by a
character outside the repeated class, so greedy matching is forced and the
matchers below compute exactly the matches that Python's `re` module finds.
File discovery and I/O are abstracted: `mainRun` receives the configuration
text and the contents of the discovered Markdown files and returns the new
file contents, the printed lines and the process exit code.
-/

/-! ## Character classes -/

/-- The code points matched by the regex class `\s`.  The script compiles
its patterns from `str` literals without `re.ASCII`, so `\s` matches every
Unicode whitespace character, not only the ASCII ones. -/
def wsCodes : List Nat :=
  [0x9, 0xa, 0xb, 0xc, 0xd, 0x1c, 0x1d, 0x1e, 0x1f, 0x20, 0x85, 0xa0,
   0x1680, 0x2000, 0x2001, 0x2002, 0x2003, 0x2004, 0x2005, 0x2006, 0x2007,
   0x2008, 0x2009, 0x200a, 0x2028, 0x2029, 0x202f, 0x205f, 0x3000]

/-- The regex class `\s` (Unicode whitespace). -/
def isWS (c : Char) : Bool :=
  wsCodes.contains c.toNat

/-- First code points of the runs of Unicode decimal digits (category `Nd`).
Every run is ten consecutive code points, the digits `0..9` of one script;
the mathematical alphanumeric digits `U+1D7CE..U+1D7FF` appear as five
consecutive runs. -/
def ndStarts : List Nat :=
  [0x30, 0x660, 0x6f0, 0x7c0, 0x966, 0x9e6, 0xa66, 0xae6, 0xb66, 0xbe6,
   0xc66, 0xce6, 0xd66, 0xde6, 0xe50, 0xed0, 0xf20, 0x1040, 0x1090, 0x17e0,
   0x1810, 0x1946, 0x19d0, 0x1a80, 0x1a90, 0x1b50, 0x1bb0, 0x1c40, 0x1c50,
   0xa620, 0xa8d0, 0xa900, 0xa9d0, 0xa9f0, 0xaa50, 0xabf0, 0xff10, 0x104a0,
   0x10d30, 0x11066, 0x110f0, 0x11136, 0x111d0, 0x112f0, 0x11450, 0x114d0,
   0x11650, 0x116c0, 0x11730, 0x118e0, 0x11950, 0x11c50, 0x11d50, 0x11da0,
   0x16a60, 0x16ac0, 0x16b50, 0x1d7ce, 0x1d7d8, 0x1d7e2, 0x1d7ec, 0x1d7f6,
   0x1e140, 0x1e2f0, 0x1e950, 0x1fbf0]

/-- The regex class `\d` (any Unicode decimal digit, category `Nd`).  The
script's patterns are compiled without `re.ASCII`, so `\d` is the full
Unicode class. -/
def isDig (c : Char) : Bool :=
  ndStarts.any (fun s => s ≤ c.toNat && c.toNat < s + 10)

/-- `headNot p l` holds when `l` does not start with a `p`-character, i.e.
a greedy `p*` can end exactly before `l`. -/
def headNot (p : Char → Bool) : List Char → Bool
  | [] => true
  | c :: _ => !p c

/-- `hnd l` holds when `l` does not start with a digit.  A greedy `\d+` can
end exactly before such a list. -/
def hnd : List Char → Bool :=
  headNot isDig

/-! ## Literal tokens of the script -/

/-- The literal placeholder `VERSION_PLACEHOLDER` of the script. -/
def VERSION_PLACEHOLDER : List Char :=
  ['{', 'V', 'e', 'r', 's', 'i', 'o', 'n', '}']

/-- The literal part `\*\*Version\*\*:` of the second annotation pattern. -/
def lit2 : List Char :=
  ['*', '*', 'V', 'e', 'r', 's', 'i', 'o', 'n', '*', '*', ':']

/-- The literal part `\*\*Version` opening the bilingual annotation pattern. -/
def tok1a : List Char :=
  ['*', '*', 'V', 'e', 'r', 's', 'i', 'o', 'n']

/-- The literal part `버전\*\*:` of the bilingual annotation pattern. -/
def tok1b : List Char :=
  ['버', '전', '*', '*', ':']

/-! ## Elementary matchers -/

/-- Strip a literal prefix: `stripPref p s = some r` iff `s = p ++ r`. -/
def stripPref : List Char → List Char → Option (List Char)
  | [], s => some s
  | _ :: _, [] => none
  | p :: ps, c :: cs => if c = p then stripPref ps cs else none

/-- Match the regex `v\d+\.\d+\.\d+` at the start of `cs`, greedily; returns
the matched characters and the remainder. -/
def parseVersion (cs : List Char) : Option (List Char × List Char) :=
  match cs with
  | 'v' :: cs1 =>
    if (cs1.takeWhile isDig).isEmpty then none else
    match cs1.dropWhile isDig with
    | '.' :: cs2 =>
      if (cs2.takeWhile isDig).isEmpty then none else
      match cs2.dropWhile isDig with
      | '.' :: cs3 =>
        if (cs3.takeWhile isDig).isEmpty then none else
        some ('v' :: cs1.takeWhile isDig ++ '.' :: cs2.takeWhile isDig ++
                '.' :: cs3.takeWhile isDig,
              cs3.dropWhile isDig)
      | _ => none
    | _ => none
  | _ => none

/-- A well-formed version string `v<digits>.<digits>.<digits>` (the exact
shape produced by the capture group of `YAML_VERSION_REGEX`). -/
def wfVer (w : List Char) : Prop :=
  parseVersion w = some (w, [])

instance (w : List Char) : Decidable (wfVer w) := by
  unfold wfVer; infer_instance

/-- Match the regex `(\*\*Version\*\*:\s*)v\d+\.\d+\.\d+` at the start of the
text.  On success returns `(group 1, matched version, rest)`. -/
def matchAt2 (cs : List Char) : Option (List Char × List Char × List Char) :=
  match stripPref lit2 cs with
  | none => none
  | some c1 =>
    match parseVersion (c1.dropWhile isWS) with
    | none => none
    | some (ver, rest) => some (lit2 ++ c1.takeWhile isWS, ver, rest)

/-- Match the regex `(\*\*Version\s*/\s*버전\*\*:\s*)v\d+\.\d+\.\d+` at the
start of the text.  On success returns `(group 1, matched version, rest)`. -/
def matchAt1 (cs : List Char) : Option (List Char × List Char × List Char) :=
  match stripPref tok1a cs with
  | none => none
  | some c1 =>
    match c1.dropWhile isWS with
    | '/' :: c2 =>
      match stripPref tok1b (c2.dropWhile isWS) with
      | none => none
      | some c3 =>
        match parseVersion (c3.dropWhile isWS) with
        | none => none
        | some (ver, rest) =>
          some (tok1a ++ c1.takeWhile isWS ++
                  '/' :: (c2.takeWhile isWS ++ (tok1b ++ c3.takeWhile isWS)),
                ver, rest)
    | _ => none

/-- Shape of group 1 of the pattern `\*\*Version\*\*:\s*`. -/
def GOODG2 (g : List Char) : Prop :=
  ∃ ws, ws.all isWS = true ∧ g = lit2 ++ ws

/-- Shape of group 1 of the pattern `\*\*Version\s*/\s*버전\*\*:\s*`. -/
def GOODG1 (g : List Char) : Prop :=
  ∃ w1 w2 w3, w1.all isWS = true ∧ w2.all isWS = true ∧ w3.all isWS = true ∧
    g = tok1a ++ w1 ++ '/' :: (w2 ++ (tok1b ++ w3))

/-! ## The substitution engine

`subF` is `re.sub` for the two annotation patterns: scan left to right, at
each position try the pattern; on a match emit `group 1 ++ version` and
resume after the match, otherwise copy one character.  A fuel argument makes
the definition structural (the fuel is the length of the text, which always
suffices because matches are nonempty). -/

def subF (mAt : List Char → Option (List Char × List Char × List Char))
    (v : List Char) : Nat → List Char → List Char
  | 0, s => s
  | _ + 1, [] => []
  | n + 1, c :: cs =>
    match mAt (c :: cs) with
    | some (g, _, r) => g ++ v ++ subF mAt v n r
    | none => c :: subF mAt v n cs

/-- `pattern.sub(rf"\1{version}", text)` for one annotation pattern. -/
def patSub (mAt : List Char → Option (List Char × List Char × List Char))
    (v : List Char) (s : List Char) : List Char :=
  subF mAt v s.length s

/-! ## Placeholder replacement (`str.replace`) -/

/-- Fueled body of `str.replace` for the placeholder token: leftmost,
non-overlapping, the replacement is not rescanned. -/
def replF (rep : List Char) : Nat → List Char → List Char
  | 0, s => s
  | _ + 1, [] => []
  | n + 1, c :: cs =>
    if VERSION_PLACEHOLDER.isPrefixOf (c :: cs) then
      rep ++ replF rep n ((c :: cs).drop VERSION_PLACEHOLDER.length)
    else
      c :: replF rep n cs

/-- `text.replace(VERSION_PLACEHOLDER, version)`. -/
def replacePH (rep : List Char) (s : List Char) : List Char :=
  replF rep s.length s

/-- `VERSION_PLACEHOLDER in text` (substring test). -/
def containsTok (pat : List Char) : List Char → Bool
  | [] => pat.isEmpty
  | c :: cs => pat.isPrefixOf (c :: cs) || containsTok pat cs

/-! ## The per-file updater `update_markdown` -/

/-- The pure content transformation of `update_markdown`: placeholder
replacement (guarded by a containment test, as in the source), then the
bilingual annotation pattern, then the plain one. -/
def updateContent (v s : List Char) : List Char :=
  let s1 := if containsTok VERSION_PLACEHOLDER s then replacePH v s else s
  let s2 := patSub matchAt1 v s1
  patSub matchAt2 v s2

/-- `update_markdown`: returns the resulting file content and whether the
file was rewritten (the script writes back exactly when the transformed
content differs from the original, and returns that boolean). -/
def update_markdown (v s : List Char) : List Char × Bool :=
  let updated := updateContent v s
  (updated, updated != s)

/-! ## The version loader `load_version` -/

/-- `noMatchSuf mAt s`: no suffix of `s` starts a match of the pattern. -/
def noMatchSuf (mAt : List Char → Option (List Char × List Char × List Char))
    (s : List Char) : Bool :=
  s.tails.all fun t => (mAt t).isNone

/-- `onlyMatchAt s frag`: the only suffix of `s` at which either annotation
pattern matches is (at most) `frag`. -/
def onlyMatchAt (s frag : List Char) : Bool :=
  s.tails.all fun t =>
    t == frag || ((matchAt1 t).isNone && (matchAt2 t).isNone)

/-- The shape of a string matched by `v\d+\.\d+\.\d+`. -/
def VerShape (ver : List Char) : Prop :=
  ∃ d1 d2 d3 : List Char, d1 ≠ [] ∧ d2 ≠ [] ∧ d3 ≠ [] ∧
    d1.all isDig = true ∧ d2.all isDig = true ∧ d3.all isDig = true ∧
    ver = 'v' :: d1 ++ '.' :: d2 ++ '.' :: d3

structure PatOK (mAt : List Char → Option (List Char × List Char × List Char))
    (G : List Char → Prop) : Prop where
  char : ∀ t g ver r, mAt t = some (g, ver, r) ↔
    G g ∧ wfVer ver ∧ t = g ++ (ver ++ r) ∧ hnd r = true
  star : ∀ g, G g → ∃ t', g = '*' :: t'
  noV : ∀ g, G g → 'v' ∉ g
  noBrace : ∀ g, G g → '{' ∉ g

/-! ## Chunked texts for the global-substitution theorem

A text containing several plain-pattern fragments is described by a list of
chunks `(gap, ws, ver)`: a gap with no match, then `**Version**:` ++ `ws`
followed by `ver`.  Bilingual chunks carry the three whitespace runs of
that pattern. -/

def chunks2Text : List (List Char × List Char × List Char) → List Char → List Char
  | [], c => c
  | (gap, ws, ver) :: L, c => gap ++ ((lit2 ++ ws) ++ (ver ++ chunks2Text L c))

def chunks2Out (v : List Char) :
    List (List Char × List Char × List Char) → List Char → List Char
  | [], c => c
  | (gap, ws, _) :: L, c => gap ++ ((lit2 ++ ws) ++ (v ++ chunks2Out v L c))

def chunks2OK : List (List Char × List Char × List Char) → List Char → Bool
  | [], c => noMatchSuf matchAt2 c
  | (gap, ws, ver) :: L, c =>
    ws.all isWS && decide (wfVer ver) && hnd (chunks2Text L c) &&
    (gap.tails.all fun a' => a'.isEmpty ||
      (matchAt2 (a' ++ ((lit2 ++ ws) ++ (ver ++ chunks2Text L c)))).isNone) &&
    chunks2OK L c

def mkG1 (w1 w2 w3 : List Char) : List Char :=
  tok1a ++ w1 ++ '/' :: (w2 ++ (tok1b ++ w3))

def chunks1Text :
    List (List Char × List Char × List Char × List Char × List Char) →
    List Char → List Char
  | [], c => c
  | (gap, w1, w2, w3, ver) :: L, c =>
    gap ++ (mkG1 w1 w2 w3 ++ (ver ++ chunks1Text L c))

def chunks1Out (v : List Char) :
    List (List Char × List Char × List Char × List Char × List Char) →
    List Char → List Char
  | [], c => c
  | (gap, w1, w2, w3, _) :: L, c =>
    gap ++ (mkG1 w1 w2 w3 ++ (v ++ chunks1Out v L c))

def chunks1OK :
    List (List Char × List Char × List Char × List Char × List Char) →
    List Char → Bool
  | [], c => noMatchSuf matchAt1 c
  | (gap, w1, w2, w3, ver) :: L, c =>
    w1.all isWS && w2.all isWS && w3.all isWS && decide (wfVer ver) &&
    hnd (chunks1Text L c) &&
    (gap.tails.all fun a' => a'.isEmpty ||
      (matchAt1 (a' ++ (mkG1 w1 w2 w3 ++ (ver ++ chunks1Text L c)))).isNone) &&
    chunks1OK L c

/-! # Lemmas

## Greedy munching -/

theorem headNot_nil (p : Char → Bool) : headNot p [] = true := rfl

theorem headNot_cons (p : Char → Bool) (c : Char) (cs : List Char) :
    headNot p (c :: cs) = !p c := rfl

theorem takeWhile_munch (p : Char → Bool) (as bs : List Char)
    (ha : as.all p = true) (hb : headNot p bs = true) :
    (as ++ bs).takeWhile p = as ∧ (as ++ bs).dropWhile p = bs := by
  induction as with
  | nil =>
    cases bs with
    | nil => exact ⟨rfl, rfl⟩
    | cons b bs' =>
      rw [headNot_cons, Bool.not_eq_true'] at hb
      constructor
      · rw [List.nil_append, List.takeWhile_cons, hb]
        simp
      · rw [List.nil_append, List.dropWhile_cons, hb]
        simp
  | cons a as' ih =>
    simp only [List.all_cons, Bool.and_eq_true] at ha
    have h2 := ih ha.2
    constructor
    · rw [List.cons_append, List.takeWhile_cons, ha.1]
      simp [h2.1]
    · rw [List.cons_append, List.dropWhile_cons, ha.1]
      simp [h2.2]

theorem headNot_dropWhile (p : Char → Bool) (l : List Char) :
    headNot p (l.dropWhile p) = true := by
  induction l with
  | nil => rfl
  | cons c cs ih =>
    rw [List.dropWhile_cons]
    by_cases hc : p c = true
    · rw [if_pos hc]
      exact ih
    · rw [Bool.not_eq_true] at hc
      rw [if_neg (by simp [hc])]
      rw [headNot_cons, hc]
      rfl

theorem all_takeWhile' (p : Char → Bool) (l : List Char) :
    (l.takeWhile p).all p = true := by
  induction l with
  | nil => rfl
  | cons c cs ih =>
    rw [List.takeWhile_cons]
    by_cases hc : p c = true
    · rw [if_pos hc]
      simp [hc, ih]
    · rw [Bool.not_eq_true] at hc
      rw [if_neg (by simp [hc])]
      rfl

/-! ## `stripPref` -/

theorem stripPref_eq_some (p s r : List Char) :
    stripPref p s = some r ↔ s = p ++ r := by
  induction p generalizing s with
  | nil =>
    simp only [stripPref, List.nil_append, Option.some.injEq]
  | cons a p' ih =>
    cases s with
    | nil => simp [stripPref]
    | cons c cs =>
      simp only [stripPref, List.cons_append, List.cons.injEq]
      by_cases hc : c = a
      · simp [hc, ih]
      · simp [hc]

theorem stripPref_self_append (p x : List Char) :
    stripPref p (p ++ x) = some x :=
  (stripPref_eq_some p (p ++ x) x).mpr rfl

/-! ## `parseVersion` -/

theorem not_isDig_dot : isDig '.' = false := by decide

theorem not_isWS_v : isWS 'v' = false := by decide

theorem parseVersion_eq_some (cs ver r : List Char) :
    parseVersion cs = some (ver, r) ↔
      VerShape ver ∧ cs = ver ++ r ∧ hnd r = true := by
  constructor
  · intro h
    unfold parseVersion at h
    split at h
    case h_2 => exact absurd h (by simp)
    case h_1 cs' cs1 =>
      split at h
      case isTrue => exact absurd h (by simp)
      case isFalse he1 =>
        split at h
        case h_2 => exact absurd h (by simp)
        case h_1 cs2 heq1 =>
          split at h
          case isTrue => exact absurd h (by simp)
          case isFalse he2 =>
            split at h
            case h_2 => exact absurd h (by simp)
            case h_1 cs3 heq2 =>
              split at h
              case isTrue => exact absurd h (by simp)
              case isFalse he3 =>
                rw [Option.some.injEq, Prod.mk.injEq] at h
                obtain ⟨hver, hr⟩ := h
                refine ⟨⟨cs1.takeWhile isDig, cs2.takeWhile isDig,
                  cs3.takeWhile isDig,
                  by simpa [List.isEmpty_iff] using he1,
                  by simpa [List.isEmpty_iff] using he2,
                  by simpa [List.isEmpty_iff] using he3,
                  all_takeWhile' _ _, all_takeWhile' _ _, all_takeWhile' _ _,
                  hver.symm⟩, ?_, ?_⟩
                · rw [← hver, ← hr]
                  simp only [List.cons_append, List.append_assoc, List.cons.injEq,
                    true_and]
                  rw [List.takeWhile_append_dropWhile isDig cs3, ← heq2,
                    List.takeWhile_append_dropWhile isDig cs2, ← heq1,
                    List.takeWhile_append_dropWhile isDig cs1]
                · rw [← hr]
                  exact headNot_dropWhile isDig cs3
  · rintro ⟨⟨d1, d2, d3, h1, h2, h3, a1, a2, a3, hver⟩, hcs, hr⟩
    subst hver
    subst hcs
    have hb1 : headNot isDig ('.' :: (d2 ++ ('.' :: (d3 ++ r)))) = true := by
      rw [headNot_cons, not_isDig_dot]
      rfl
    have hb2 : headNot isDig ('.' :: (d3 ++ r)) = true := by
      rw [headNot_cons, not_isDig_dot]
      rfl
    have m1 := takeWhile_munch isDig d1 ('.' :: (d2 ++ ('.' :: (d3 ++ r)))) a1 hb1
    have m2 := takeWhile_munch isDig d2 ('.' :: (d3 ++ r)) a2 hb2
    have m3 := takeWhile_munch isDig d3 r a3 hr
    have hass : ('v' :: d1 ++ '.' :: d2 ++ '.' :: d3) ++ r =
        'v' :: (d1 ++ ('.' :: (d2 ++ ('.' :: (d3 ++ r))))) := by
      simp
    rw [hass]
    simp only [parseVersion, m1.1, m1.2, m2.1, m2.2, m3.1, m3.2]
    rw [if_neg (by simp [List.isEmpty_iff, h1])]
    rw [if_neg (by simp [List.isEmpty_iff, h2])]
    rw [if_neg (by simp [List.isEmpty_iff, h3])]

theorem wfVer_iff (w : List Char) : wfVer w ↔ VerShape w := by
  unfold wfVer
  rw [parseVersion_eq_some]
  constructor
  · intro h
    exact h.1
  · intro h
    exact ⟨h, by simp, rfl⟩

theorem parseVersion_append (a x : List Char) (ha : wfVer a) (hx : hnd x = true) :
    parseVersion (a ++ x) = some (a, x) := by
  rw [parseVersion_eq_some]
  exact ⟨(wfVer_iff a).mp ha, rfl, hx⟩

/-- Maximal-munch uniqueness: a version match is determined by any
digit-free continuation. -/
theorem verEq (a b x y : List Char) (ha : wfVer a) (hb : wfVer b)
    (hx : hnd x = true) (hy : hnd y = true) (h : a ++ x = b ++ y) :
    a = b ∧ x = y := by
  have e1 := parseVersion_append a x ha hx
  have e2 := parseVersion_append b y hb hy
  rw [h, e2, Option.some.injEq, Prod.mk.injEq] at e1
  exact ⟨e1.1.symm, e1.2.symm⟩

theorem wfVer_cons (w : List Char) (h : wfVer w) : ∃ t, w = 'v' :: t := by
  obtain ⟨d1, d2, d3, -, -, -, -, -, -, hw⟩ := (wfVer_iff w).mp h
  exact ⟨d1 ++ '.' :: d2 ++ '.' :: d3, by simp [hw]⟩

theorem headNot_WS_of_wf (w x : List Char) (h : wfVer w) :
    headNot isWS (w ++ x) = true := by
  obtain ⟨t, ht⟩ := wfVer_cons w h
  subst ht
  rw [List.cons_append, headNot_cons, not_isWS_v]
  rfl

theorem hnd_of_wf (w x : List Char) (h : wfVer w) : hnd (w ++ x) = true := by
  obtain ⟨t, ht⟩ := wfVer_cons w h
  subst ht
  show headNot isDig ('v' :: (t ++ x)) = true
  rw [headNot_cons]
  decide

/-! ## Characterization of the annotation matchers -/

theorem matchAt2_eq_some (t g ver r : List Char) :
    matchAt2 t = some (g, ver, r) ↔
      GOODG2 g ∧ wfVer ver ∧ t = g ++ ver ++ r ∧ hnd r = true := by
  constructor
  · intro h
    unfold matchAt2 at h
    split at h
    case h_1 => exact absurd h (by simp)
    case h_2 c1 heq =>
      split at h
      case h_1 => exact absurd h (by simp)
      case h_2 ver' r' heq2 =>
        rw [Option.some.injEq, Prod.mk.injEq, Prod.mk.injEq] at h
        obtain ⟨hg, hver, hr⟩ := h
        rw [hver, hr] at heq2
        rw [stripPref_eq_some] at heq
        rw [parseVersion_eq_some] at heq2
        refine ⟨⟨c1.takeWhile isWS, all_takeWhile' _ _, hg.symm⟩,
          (wfVer_iff ver).mpr heq2.1, ?_, heq2.2.2⟩
        rw [← hg, heq]
        conv_lhs => rw [← List.takeWhile_append_dropWhile isWS c1]
        rw [heq2.2.1]
        simp
  · rintro ⟨⟨ws, hws, hg⟩, hver, ht, hr⟩
    subst hg
    subst ht
    have hself : stripPref lit2 ((lit2 ++ ws) ++ ver ++ r) =
        some (ws ++ (ver ++ r)) := by
      rw [stripPref_eq_some]
      simp
    have hm := takeWhile_munch isWS ws (ver ++ r) hws (headNot_WS_of_wf ver r hver)
    have hpv : parseVersion (ver ++ r) = some (ver, r) :=
      parseVersion_append ver r hver hr
    simp only [matchAt2, hself, hm.1, hm.2, hpv]

theorem not_isWS_slash : isWS '/' = false := by decide

theorem not_isWS_b : isWS '버' = false := by decide

theorem matchAt1_eq_some (t g ver r : List Char) :
    matchAt1 t = some (g, ver, r) ↔
      GOODG1 g ∧ wfVer ver ∧ t = g ++ ver ++ r ∧ hnd r = true := by
  constructor
  · intro h
    unfold matchAt1 at h
    split at h
    case h_1 => exact absurd h (by simp)
    case h_2 c1 heq =>
      split at h
      case h_2 => exact absurd h (by simp)
      case h_1 c2 heqd =>
        split at h
        case h_1 => exact absurd h (by simp)
        case h_2 c3 heqb =>
          split at h
          case h_1 => exact absurd h (by simp)
          case h_2 ver' r' heqp =>
            rw [Option.some.injEq, Prod.mk.injEq, Prod.mk.injEq] at h
            obtain ⟨hg, hver, hr⟩ := h
            rw [hver, hr] at heqp
            rw [stripPref_eq_some] at heq
            rw [stripPref_eq_some] at heqb
            rw [parseVersion_eq_some] at heqp
            refine ⟨⟨c1.takeWhile isWS, c2.takeWhile isWS, c3.takeWhile isWS,
              all_takeWhile' _ _, all_takeWhile' _ _, all_takeWhile' _ _,
              hg.symm⟩,
              (wfVer_iff ver).mpr heqp.1, ?_, heqp.2.2⟩
            rw [← hg, heq]
            conv_lhs => rw [← List.takeWhile_append_dropWhile isWS c1]
            rw [heqd]
            conv_lhs => rw [← List.takeWhile_append_dropWhile isWS c2]
            rw [heqb]
            conv_lhs => rw [← List.takeWhile_append_dropWhile isWS c3]
            rw [heqp.2.1]
            simp
  · rintro ⟨⟨w1, w2, w3, hw1, hw2, hw3, hg⟩, hver, ht, hr⟩
    subst hg
    subst ht
    have hself : stripPref tok1a
        ((tok1a ++ w1 ++ '/' :: (w2 ++ (tok1b ++ w3))) ++ ver ++ r) =
        some (w1 ++ ('/' :: (w2 ++ (tok1b ++ (w3 ++ (ver ++ r)))))) := by
      rw [stripPref_eq_some]
      simp
    have hm1 := takeWhile_munch isWS w1 ('/' :: (w2 ++ (tok1b ++ (w3 ++ (ver ++ r)))))
      hw1 (by rw [headNot_cons, not_isWS_slash]; rfl)
    have hbb : headNot isWS (tok1b ++ (w3 ++ (ver ++ r))) = true := by
      rw [show tok1b ++ (w3 ++ (ver ++ r)) =
        '버' :: ('전' :: ('*' :: ('*' :: (':' :: (w3 ++ (ver ++ r)))))) by
          simp [tok1b]]
      rw [headNot_cons, not_isWS_b]
      rfl
    have hm2 := takeWhile_munch isWS w2 (tok1b ++ (w3 ++ (ver ++ r))) hw2 hbb
    have hmb : stripPref tok1b (tok1b ++ (w3 ++ (ver ++ r))) =
        some (w3 ++ (ver ++ r)) := stripPref_self_append _ _
    have hm3 := takeWhile_munch isWS w3 (ver ++ r) hw3 (headNot_WS_of_wf ver r hver)
    have hpv : parseVersion (ver ++ r) = some (ver, r) :=
      parseVersion_append ver r hver hr
    simp only [matchAt1, hself, hm1.1, hm1.2, hm2.1, hm2.2, hmb, hm3.1, hm3.2, hpv]

/-! ## Character content of groups and versions -/

theorem wfVer_tail (w : List Char) (h : wfVer w) :
    ∃ tl, w = 'v' :: tl ∧ ∀ c ∈ tl, (isDig c = true ∨ c = '.') := by
  obtain ⟨d1, d2, d3, -, -, -, a1, a2, a3, hw⟩ := (wfVer_iff w).mp h
  refine ⟨d1 ++ '.' :: d2 ++ '.' :: d3, by simp [hw], ?_⟩
  intro c hc
  rw [List.all_eq_true] at a1 a2 a3
  simp only [List.append_assoc, List.cons_append, List.mem_append,
    List.mem_cons] at hc
  rcases hc with h1 | h2 | h2
  · exact Or.inl (a1 c h1)
  · exact Or.inr h2
  rcases h2 with h2 | h3 | h4
  · exact Or.inl (a2 c h2)
  · exact Or.inr h3
  · exact Or.inl (a3 c h4)

theorem wfVer_mem (w : List Char) (h : wfVer w) :
    ∀ c ∈ w, (c = 'v' ∨ isDig c = true ∨ c = '.') := by
  obtain ⟨tl, hw, htl⟩ := wfVer_tail w h
  intro c hc
  rw [hw, List.mem_cons] at hc
  rcases hc with hc | hc
  · exact Or.inl hc
  · rcases htl c hc with h1 | h2
    · exact Or.inr (Or.inl h1)
    · exact Or.inr (Or.inr h2)

theorem goodG2_mem (g : List Char) (hG : GOODG2 g) :
    ∀ c ∈ g, (c ∈ lit2 ∨ isWS c = true) := by
  obtain ⟨ws, hws, rfl⟩ := hG
  intro c hc
  rw [List.mem_append] at hc
  rcases hc with hc | hc
  · exact Or.inl hc
  · rw [List.all_eq_true] at hws
    exact Or.inr (hws c hc)

theorem goodG1_mem (g : List Char) (hG : GOODG1 g) :
    ∀ c ∈ g, (c ∈ tok1a ∨ c ∈ tok1b ∨ c = '/' ∨ isWS c = true) := by
  obtain ⟨w1, w2, w3, hw1, hw2, hw3, rfl⟩ := hG
  intro c hc
  rw [List.all_eq_true] at hw1 hw2 hw3
  simp only [List.append_assoc, List.cons_append, List.mem_append,
    List.mem_cons] at hc
  rcases hc with h | h | h
  · exact Or.inl h
  · exact Or.inr (Or.inr (Or.inr (hw1 c h)))
  rcases h with h | h
  · exact Or.inr (Or.inr (Or.inl h))
  rcases h with h | h
  · exact Or.inr (Or.inr (Or.inr (hw2 c h)))
  rcases h with h | h
  · exact Or.inr (Or.inl h)
  · exact Or.inr (Or.inr (Or.inr (hw3 c h)))

/-! ## Abstract pattern interface

Both annotation patterns enjoy the same basic facts (see `PatOK` above);
the lemmas about the substitution engine are proved once against this
interface. -/

theorem patOK2 : PatOK matchAt2 GOODG2 := by
  refine ⟨?_, ?_, ?_, ?_⟩
  · intro t g ver r
    rw [matchAt2_eq_some]
    rw [List.append_assoc]
  · rintro g ⟨ws, -, rfl⟩
    exact ⟨['*', 'V', 'e', 'r', 's', 'i', 'o', 'n', '*', '*', ':'] ++ ws, rfl⟩
  · intro g hG hmem
    rcases goodG2_mem g hG 'v' hmem with h | h
    · exact absurd h (by decide)
    · exact absurd h (by decide)
  · intro g hG hmem
    rcases goodG2_mem g hG '{' hmem with h | h
    · exact absurd h (by decide)
    · exact absurd h (by decide)

theorem patOK1 : PatOK matchAt1 GOODG1 := by
  refine ⟨?_, ?_, ?_, ?_⟩
  · intro t g ver r
    rw [matchAt1_eq_some]
    rw [List.append_assoc]
  · rintro g ⟨w1, w2, w3, -, -, -, rfl⟩
    exact ⟨['*', 'V', 'e', 'r', 's', 'i', 'o', 'n'] ++ w1 ++
      '/' :: (w2 ++ (tok1b ++ w3)), rfl⟩
  · intro g hG hmem
    rcases goodG1_mem g hG 'v' hmem with h | h | h | h
    · exact absurd h (by decide)
    · exact absurd h (by decide)
    · exact absurd h (by decide)
    · exact absurd h (by decide)
  · intro g hG hmem
    rcases goodG1_mem g hG '{' hmem with h | h | h | h
    · exact absurd h (by decide)
    · exact absurd h (by decide)
    · exact absurd h (by decide)
    · exact absurd h (by decide)

/-! ## Suffix decomposition helpers -/

theorem suffix_append_split {α : Type} (t a b : List α) (h : t <:+ a ++ b) :
    t <:+ b ∨ ∃ w, w <:+ a ∧ w ≠ [] ∧ t = w ++ b := by
  obtain ⟨x, hx⟩ := h
  rcases (List.append_eq_append_iff).mp hx with ⟨a', ha, hta⟩ | ⟨c', hc, hbc⟩
  · cases a' with
    | nil =>
      left
      rw [List.nil_append] at hta
      rw [← hta]
    | cons y ys =>
      right
      exact ⟨y :: ys, ⟨x, ha.symm⟩, by simp, hta⟩
  · left
    exact ⟨c', hbc.symm⟩

theorem suffix_append_right {α : Type} (a' a X : List α) (h : a' <:+ a) :
    a' ++ X <:+ a ++ X := by
  obtain ⟨t, ht⟩ := h
  exact ⟨t, by rw [← List.append_assoc, ht]⟩

theorem suffix_of_decomp {α : Type} {u w s : List α} (h : s = u ++ w) : w <:+ s :=
  ⟨u, h.symm⟩

/-! ## Equations of the substitution engine -/

section EngineLemmas

variable {mAt : List Char → Option (List Char × List Char × List Char)}
variable {G : List Char → Prop}
variable {v : List Char}

theorem patOK_shrink (hP : PatOK mAt G) (c : Char) (cs g ver r : List Char)
    (h : mAt (c :: cs) = some (g, ver, r)) : r.length ≤ cs.length := by
  obtain ⟨hG, hver, ht, -⟩ := (hP.char _ _ _ _).mp h
  obtain ⟨t', hg⟩ := hP.star g hG
  obtain ⟨tl, hv', -⟩ := wfVer_tail ver hver
  have hlen := congrArg List.length ht
  rw [hg, hv'] at hlen
  simp only [List.length_cons, List.length_append] at hlen
  omega

theorem subF_fuel (hP : PatOK mAt G) : ∀ n m s, s.length ≤ n → s.length ≤ m →
    subF mAt v n s = subF mAt v m s := by
  intro n
  induction n with
  | zero =>
    intro m s hn _
    have : s = [] := by
      cases s with
      | nil => rfl
      | cons c cs => simp at hn
    subst this
    cases m <;> rfl
  | succ n ih =>
    intro m s hn hm
    cases s with
    | nil => cases m <;> rfl
    | cons c cs =>
      cases m with
      | zero => simp at hm
      | succ m' =>
        simp only [List.length_cons] at hn hm
        cases hmc : mAt (c :: cs) with
        | none =>
          simp only [subF, hmc]
          rw [ih m' cs (by omega) (by omega)]
        | some trip =>
          obtain ⟨g, ver, r⟩ := trip
          have hr := patOK_shrink hP c cs g ver r hmc
          simp only [subF, hmc]
          rw [ih m' r (by omega) (by omega)]

theorem patSub_cons_none (c : Char) (cs : List Char) (h : mAt (c :: cs) = none) :
    patSub mAt v (c :: cs) = c :: patSub mAt v cs := by
  show subF mAt v (cs.length + 1) (c :: cs) = c :: subF mAt v cs.length cs
  simp only [subF, h]

theorem patSub_cons_some (hP : PatOK mAt G) (c : Char) (cs g ver r : List Char)
    (h : mAt (c :: cs) = some (g, ver, r)) :
    patSub mAt v (c :: cs) = g ++ v ++ patSub mAt v r := by
  show subF mAt v (cs.length + 1) (c :: cs) = g ++ v ++ subF mAt v r.length r
  simp only [subF, h]
  rw [subF_fuel hP cs.length r.length r (patOK_shrink hP c cs g ver r h)
    (Nat.le_refl _)]

/-- Decomposition of one pass of the engine: either the text has no match at
all (output unchanged), or the text splits at the first match. -/
theorem patSub_decomp (hP : PatOK mAt G) : ∀ n (s : List Char), s.length ≤ n →
    patSub mAt v s = s ∨
    ∃ u g ver r, mAt (g ++ (ver ++ r)) = some (g, ver, r) ∧
      s = u ++ (g ++ (ver ++ r)) ∧
      patSub mAt v s = u ++ (g ++ (v ++ patSub mAt v r)) := by
  intro n
  induction n with
  | zero =>
    intro s hn
    left
    have : s = [] := by
      cases s with
      | nil => rfl
      | cons c cs => simp at hn
    subst this
    rfl
  | succ n ih =>
    intro s hn
    cases s with
    | nil => exact Or.inl rfl
    | cons c cs =>
      simp only [List.length_cons] at hn
      cases hmc : mAt (c :: cs) with
      | some trip =>
        obtain ⟨g, ver, r⟩ := trip
        obtain ⟨hG, hver, ht, hr⟩ := (hP.char _ _ _ _).mp hmc
        right
        refine ⟨[], g, ver, r, by rw [← ht]; exact hmc, by simpa using ht, ?_⟩
        rw [patSub_cons_some hP c cs g ver r hmc]
        simp [List.append_assoc]
      | none =>
        rcases ih cs (by omega) with h1 | ⟨u, g, ver, r, hm, hcs, hsub⟩
        · left
          rw [patSub_cons_none c cs hmc, h1]
        · right
          refine ⟨c :: u, g, ver, r, hm, by rw [hcs]; rfl, ?_⟩
          rw [patSub_cons_none c cs hmc, hsub]
          rfl

/-- If every match anywhere in `s` already carries version `v`, the engine
leaves `s` unchanged. -/
theorem patSub_id_of_mismatchFree (hP : PatOK mAt G) :
    ∀ n (s : List Char), s.length ≤ n →
    (∀ t, t <:+ s → ∀ g ver r, mAt t = some (g, ver, r) → ver = v) →
    patSub mAt v s = s := by
  intro n
  induction n with
  | zero =>
    intro s hn _
    have : s = [] := by
      cases s with
      | nil => rfl
      | cons c cs => simp at hn
    subst this
    rfl
  | succ n ih =>
    intro s hn hfree
    cases s with
    | nil => rfl
    | cons c cs =>
      simp only [List.length_cons] at hn
      cases hmc : mAt (c :: cs) with
      | none =>
        rw [patSub_cons_none c cs hmc]
        rw [ih cs (by omega) fun t ht => hfree t (ht.trans (List.suffix_cons c cs))]
      | some trip =>
        obtain ⟨g, ver, r⟩ := trip
        obtain ⟨hG, hver, ht, hr⟩ := (hP.char _ _ _ _).mp hmc
        have hvv : ver = v := hfree (c :: cs) (List.suffix_refl _) g ver r hmc
        have hrs : r <:+ c :: cs := by
          refine ⟨g ++ ver, ?_⟩
          rw [ht, ← List.append_assoc]
        have hrlen := patOK_shrink hP c cs g ver r hmc
        rw [patSub_cons_some hP c cs g ver r hmc]
        rw [ih r (by omega) fun t htr => hfree t (htr.trans hrs)]
        rw [ht, hvv]
        simp [List.append_assoc]

/-- Scanning over a region in which no suffix starts a match copies that
region verbatim. -/
theorem patSub_append_nomatch (a X : List Char)
    (h : ∀ a', a' <:+ a → a' ≠ [] → mAt (a' ++ X) = none) :
    patSub mAt v (a ++ X) = a ++ patSub mAt v X := by
  induction a with
  | nil => simp
  | cons c a' ih =>
    have h0 : mAt ((c :: a') ++ X) = none :=
      h (c :: a') (List.suffix_refl _) (by simp)
    rw [List.cons_append] at h0 ⊢
    rw [patSub_cons_none c (a' ++ X) h0]
    rw [ih fun w hw hne => h w (hw.trans (List.suffix_cons c a')) hne]
    rfl

theorem patSub_headNot (hP : PatOK mAt G) (s : List Char) (h : hnd s = true) :
    hnd (patSub mAt v s) = true := by
  cases s with
  | nil => exact h
  | cons c cs =>
    cases hmc : mAt (c :: cs) with
    | none =>
      rw [patSub_cons_none c cs hmc]
      exact h
    | some trip =>
      obtain ⟨g, ver, r⟩ := trip
      obtain ⟨hG, -, -, -⟩ := (hP.char _ _ _ _).mp hmc
      obtain ⟨t', hg⟩ := hP.star g hG
      rw [patSub_cons_some hP c cs g ver r hmc, hg]
      show headNot isDig ('*' :: (t' ++ v ++ patSub mAt v r)) = true
      rw [headNot_cons]
      decide

end EngineLemmas

/-! ## The boundary analysis

`core` analyses how a pattern match can sit on the output text around a
freshly substituted block `... ++ v ++ Y`: the match either ends before the
block (so it transfers to the input text), or it ends exactly with the
block's version, which then equals `v` by maximal munch. -/

section CoreLemmas

variable {mAtQ : List Char → Option (List Char × List Char × List Char)}
variable {GQ : List Char → Prop}
variable {v : List Char}

theorem patOK_nil {mAt : List Char → Option (List Char × List Char × List Char)}
    {G : List Char → Prop} (hP : PatOK mAt G) : mAt [] = none := by
  cases h : mAt [] with
  | none => rfl
  | some trip =>
    obtain ⟨g, ver, r⟩ := trip
    obtain ⟨hG, -, ht, -⟩ := (hP.char _ _ _ _).mp h
    obtain ⟨t', hg⟩ := hP.star g hG
    rw [hg] at ht
    exact absurd ht (by simp)

theorem core (hQ : PatOK mAtQ GQ) (hv : wfVer v)
    (U Y g_m ver_m r_m : List Char) (hY : hnd Y = true)
    (h : mAtQ (U ++ (v ++ Y)) = some (g_m, ver_m, r_m)) :
    (∃ z, U = g_m ++ (ver_m ++ z) ∧ hnd z = true) ∨
      (g_m = U ∧ ver_m = v ∧ r_m = Y) := by
  obtain ⟨hG, hwm, ht, hr⟩ := (hQ.char _ _ _ _).mp h
  rcases List.append_eq_append_iff.mp ht with ⟨e, he1, he2⟩ | ⟨e, he1, he2⟩
  · -- g_m = U ++ e and v ++ Y = e ++ (ver_m ++ r_m)
    cases e with
    | nil =>
      rw [List.append_nil] at he1
      have := verEq v ver_m Y r_m hv hwm hY hr (by simpa using he2)
      exact Or.inr ⟨he1, this.1.symm, this.2.symm⟩
    | cons c e' =>
      obtain ⟨tl, hvtl⟩ := wfVer_cons v hv
      rw [hvtl] at he2
      have hc : c = 'v' := by
        have := congrArg (fun l => l.head?) he2
        simpa using this.symm
      have hmem : 'v' ∈ g_m := by
        rw [he1, hc]
        exact List.mem_append_right U (List.mem_cons_self 'v' e')
      exact absurd hmem (hQ.noV g_m hG)
  · -- U = g_m ++ e and ver_m ++ r_m = e ++ (v ++ Y)
    rcases List.append_eq_append_iff.mp he2 with ⟨f, hf1, hf2⟩ | ⟨f, hf1, hf2⟩
    · -- e = ver_m ++ f and r_m = f ++ (v ++ Y)
      refine Or.inl ⟨f, by rw [he1, hf1], ?_⟩
      cases f with
      | nil => rfl
      | cons fc ft =>
        rw [hf2] at hr
        exact hr
    · -- ver_m = e ++ f and v ++ Y = f ++ r_m
      cases f with
      | nil =>
        rw [List.append_nil] at hf1
        refine Or.inl ⟨[], by rw [he1, hf1, List.append_nil], rfl⟩
      | cons fc ft =>
        obtain ⟨tl, hvtl⟩ := wfVer_cons v hv
        have hfc : fc = 'v' := by
          have := congrArg (fun l => l.head?) hf2
          rw [hvtl] at this
          simpa using this.symm
        cases e with
        | nil =>
          rw [List.nil_append] at hf1
          rw [List.append_nil] at he1
          have := verEq v ver_m Y r_m hv hwm hY hr (by rw [hf2, hf1])
          exact Or.inr ⟨he1.symm, this.1.symm, this.2.symm⟩
        | cons c0 e0 =>
          obtain ⟨tlm, htlm, hchars⟩ := wfVer_tail ver_m hwm
          have hmem : fc ∈ tlm := by
            have hcomb : 'v' :: tlm = c0 :: (e0 ++ fc :: ft) := by
              rw [← htlm, hf1, List.cons_append]
            injection hcomb with h1 h2
            rw [h2]
            exact List.mem_append_right e0 (List.mem_cons_self fc ft)
          rcases hchars fc hmem with hd | hd
          · rw [hfc] at hd
            exact absurd hd (by decide)
          · rw [hfc] at hd
            exact absurd hd (by decide)

end CoreLemmas

section MismatchLemmas

variable {mAtP : List Char → Option (List Char × List Char × List Char)}
variable {GP : List Char → Prop}
variable {mAtQ : List Char → Option (List Char × List Char × List Char)}
variable {GQ : List Char → Prop}
variable {v : List Char}

/-- A match of pattern `Q` at position 0 of the output of one `P`-pass either
reflects a position-0 `Q`-match of the input or carries version `v`. -/
theorem sub_head_mismatch (hP : PatOK mAtP GP) (hQ : PatOK mAtQ GQ)
    (hv : wfVer v) (s : List Char)
    (H0 : ∀ g ver z, mAtQ s = some (g, ver, z) → ver = v)
    (g ver r : List Char)
    (h : mAtQ (patSub mAtP v s) = some (g, ver, r)) : ver = v := by
  rcases patSub_decomp hP s.length s (Nat.le_refl _) with
    hid | ⟨u, g0, ver0, r0, hm, hcs, hsub⟩
  · rw [hid] at h
    exact H0 g ver r h
  · rw [hsub] at h
    obtain ⟨hG0, hver0, -, hr0⟩ := (hP.char _ _ _ _).mp hm
    have hY : hnd (patSub mAtP v r0) = true := patSub_headNot hP r0 hr0
    rw [show u ++ (g0 ++ (v ++ patSub mAtP v r0)) =
      (u ++ g0) ++ (v ++ patSub mAtP v r0) from (List.append_assoc u g0 _).symm] at h
    rcases core hQ hv (u ++ g0) (patSub mAtP v r0) g ver r hY h with
      ⟨z, hz, hndz⟩ | ⟨-, hvv, -⟩
    · have hsz : s = g ++ (ver ++ (z ++ (ver0 ++ r0))) := by
        rw [hcs, ← List.append_assoc, hz]
        simp [List.append_assoc]
      have hndzz : hnd (z ++ (ver0 ++ r0)) = true := by
        cases z with
        | nil => exact hnd_of_wf ver0 r0 hver0
        | cons zc zt => exact hndz
      have hmatch : mAtQ s = some (g, ver, z ++ (ver0 ++ r0)) := by
        rw [hQ.char]
        obtain ⟨hGm, hvm, -, -⟩ := (hQ.char _ _ _ _).mp h
        exact ⟨hGm, hvm, hsz, hndzz⟩
      exact H0 _ _ _ hmatch
    · exact hvv

/-- After one `P`-pass, every `P`-match anywhere in the output carries
version `v` (no input hypothesis needed). -/
theorem lemA_same (hP : PatOK mAtP GP) (hv : wfVer v)
    (hSfx : ∀ g w Y, GP g → w <:+ g ++ v → w ≠ [] → w ≠ g ++ v →
      mAtP (w ++ Y) = none) :
    ∀ n (s : List Char), s.length ≤ n →
    ∀ t, t <:+ patSub mAtP v s → ∀ g ver r, mAtP t = some (g, ver, r) →
    ver = v := by
  intro n
  induction n with
  | zero =>
    intro s hn t ht g ver r hmt
    have : s = [] := by
      cases s with
      | nil => rfl
      | cons c cs => simp at hn
    subst this
    have : t = [] := List.suffix_nil.mp ht
    rw [this, patOK_nil hP] at hmt
    exact absurd hmt (by simp)
  | succ n ih =>
    intro s hn t ht g ver r hmt
    cases s with
    | nil =>
      have : t = [] := List.suffix_nil.mp ht
      rw [this, patOK_nil hP] at hmt
      exact absurd hmt (by simp)
    | cons c cs =>
      simp only [List.length_cons] at hn
      cases hmc : mAtP (c :: cs) with
      | none =>
        rw [patSub_cons_none c cs hmc] at ht
        rcases List.suffix_cons_iff.mp ht with heq | hsfx
        · rw [heq, ← patSub_cons_none c cs hmc] at hmt
          exact sub_head_mismatch hP hP hv (c :: cs)
            (fun g' ver' z h' => absurd (hmc ▸ h') (by simp)) g ver r hmt
        · exact ih cs (by omega) t hsfx g ver r hmt
      | some trip =>
        obtain ⟨g0, ver0, r0⟩ := trip
        obtain ⟨hG0, hver0, hts, hr0⟩ := (hP.char _ _ _ _).mp hmc
        have hY : hnd (patSub mAtP v r0) = true := patSub_headNot hP r0 hr0
        rw [patSub_cons_some hP c cs g0 ver0 r0 hmc] at ht
        have hrlen := patOK_shrink hP c cs g0 ver0 r0 hmc
        rcases suffix_append_split t (g0 ++ v) (patSub mAtP v r0) ht with
          hX | ⟨w, hw, hwne, hteq⟩
        · exact ih r0 (by omega) t hX g ver r hmt
        · by_cases hwfull : w = g0 ++ v
          · rw [hteq, hwfull, List.append_assoc] at hmt
            have hcomp : mAtP (g0 ++ (v ++ patSub mAtP v r0)) =
                some (g0, v, patSub mAtP v r0) := by
              rw [hP.char]
              exact ⟨hG0, hv, rfl, hY⟩
            rw [hcomp, Option.some.injEq, Prod.mk.injEq, Prod.mk.injEq] at hmt
            exact hmt.2.1.symm
          · rw [hteq, hSfx g0 w (patSub mAtP v r0) hG0 hw hwne hwfull] at hmt
            exact absurd hmt (by simp)

/-- A `P`-pass preserves "every `Q`-match carries version `v`" for the other
pattern `Q`, provided no suffix of a replaced block can start a `Q`-match. -/
theorem lemA_cross (hP : PatOK mAtP GP) (hQ : PatOK mAtQ GQ) (hv : wfVer v)
    (hSfxC : ∀ g w Y, GP g → w <:+ g ++ v → w ≠ [] → mAtQ (w ++ Y) = none) :
    ∀ n (s : List Char), s.length ≤ n →
    (∀ t, t <:+ s → ∀ g ver r, mAtQ t = some (g, ver, r) → ver = v) →
    ∀ t, t <:+ patSub mAtP v s → ∀ g ver r, mAtQ t = some (g, ver, r) →
    ver = v := by
  intro n
  induction n with
  | zero =>
    intro s hn hin t ht g ver r hmt
    have : s = [] := by
      cases s with
      | nil => rfl
      | cons c cs => simp at hn
    subst this
    have : t = [] := List.suffix_nil.mp ht
    rw [this, patOK_nil hQ] at hmt
    exact absurd hmt (by simp)
  | succ n ih =>
    intro s hn hin t ht g ver r hmt
    cases s with
    | nil =>
      have : t = [] := List.suffix_nil.mp ht
      rw [this, patOK_nil hQ] at hmt
      exact absurd hmt (by simp)
    | cons c cs =>
      simp only [List.length_cons] at hn
      cases hmc : mAtP (c :: cs) with
      | none =>
        rw [patSub_cons_none c cs hmc] at ht
        rcases List.suffix_cons_iff.mp ht with heq | hsfx
        · rw [heq, ← patSub_cons_none c cs hmc] at hmt
          exact sub_head_mismatch hP hQ hv (c :: cs)
            (fun g' ver' z h' => hin (c :: cs) (List.suffix_refl _) g' ver' z h')
            g ver r hmt
        · exact ih cs (by omega)
            (fun t' ht' => hin t' (ht'.trans (List.suffix_cons c cs))) t hsfx
            g ver r hmt
      | some trip =>
        obtain ⟨g0, ver0, r0⟩ := trip
        obtain ⟨hG0, hver0, hts, hr0⟩ := (hP.char _ _ _ _).mp hmc
        have hrs : r0 <:+ c :: cs := by
          refine ⟨g0 ++ ver0, ?_⟩
          rw [hts, ← List.append_assoc]
        have hrlen := patOK_shrink hP c cs g0 ver0 r0 hmc
        rw [patSub_cons_some hP c cs g0 ver0 r0 hmc] at ht
        rcases suffix_append_split t (g0 ++ v) (patSub mAtP v r0) ht with
          hX | ⟨w, hw, hwne, hteq⟩
        · exact ih r0 (by omega)
            (fun t' ht' => hin t' (ht'.trans hrs)) t hX g ver r hmt
        · rw [hteq, hSfxC g0 w (patSub mAtP v r0) hG0 hw hwne] at hmt
          exact absurd hmt (by simp)

end MismatchLemmas

/-! ## Which suffixes of a replaced block can start a match

A freshly substituted block is `g ++ v` with `g` a group-1 capture.  The
lemmas below classify the nonempty suffixes of such blocks by their first
few characters and show that none of them (other than, for the same
pattern, the full block) can start a match of either pattern. -/

theorem stripPref_cons_ne (p : Char) (ps : List Char) (c : Char) (cs : List Char)
    (h : c ≠ p) : stripPref (p :: ps) (c :: cs) = none := by
  simp [stripPref, h]

theorem stripPref_cons_same (p : Char) (ps cs : List Char) :
    stripPref (p :: ps) (p :: cs) = stripPref ps cs := by
  simp [stripPref]

theorem stripPref_append (p q s : List Char) :
    stripPref (p ++ q) (p ++ s) = stripPref q s := by
  induction p with
  | nil => rfl
  | cons a p' ih =>
    simp only [List.cons_append]
    rw [stripPref_cons_same]
    exact ih

theorem matchAt2_none_of_strip (t : List Char) (h : stripPref lit2 t = none) :
    matchAt2 t = none := by
  unfold matchAt2
  rw [h]

theorem matchAt1_none_of_strip (t : List Char) (h : stripPref tok1a t = none) :
    matchAt1 t = none := by
  unfold matchAt1
  rw [h]

theorem matchAt2_headne (c : Char) (X : List Char) (h : c ≠ '*') :
    matchAt2 (c :: X) = none := by
  apply matchAt2_none_of_strip
  simp only [lit2]
  exact stripPref_cons_ne _ _ _ _ h

theorem matchAt1_headne (c : Char) (X : List Char) (h : c ≠ '*') :
    matchAt1 (c :: X) = none := by
  apply matchAt1_none_of_strip
  simp only [tok1a]
  exact stripPref_cons_ne _ _ _ _ h

theorem matchAt2_starV (X : List Char) : matchAt2 ('*' :: 'V' :: X) = none := by
  apply matchAt2_none_of_strip
  simp only [lit2]
  rw [stripPref_cons_same]
  exact stripPref_cons_ne _ _ _ _ (by decide)

theorem matchAt1_starV (X : List Char) : matchAt1 ('*' :: 'V' :: X) = none := by
  apply matchAt1_none_of_strip
  simp only [tok1a]
  rw [stripPref_cons_same]
  exact stripPref_cons_ne _ _ _ _ (by decide)

theorem matchAt2_ssc (X : List Char) : matchAt2 ('*' :: '*' :: ':' :: X) = none := by
  apply matchAt2_none_of_strip
  simp only [lit2]
  rw [stripPref_cons_same, stripPref_cons_same]
  exact stripPref_cons_ne _ _ _ _ (by decide)

theorem matchAt1_ssc (X : List Char) : matchAt1 ('*' :: '*' :: ':' :: X) = none := by
  apply matchAt1_none_of_strip
  simp only [tok1a]
  rw [stripPref_cons_same, stripPref_cons_same]
  exact stripPref_cons_ne _ _ _ _ (by decide)

theorem matchAt2_sc (X : List Char) : matchAt2 ('*' :: ':' :: X) = none := by
  apply matchAt2_none_of_strip
  simp only [lit2]
  rw [stripPref_cons_same]
  exact stripPref_cons_ne _ _ _ _ (by decide)

theorem matchAt1_sc (X : List Char) : matchAt1 ('*' :: ':' :: X) = none := by
  apply matchAt1_none_of_strip
  simp only [tok1a]
  rw [stripPref_cons_same]
  exact stripPref_cons_ne _ _ _ _ (by decide)

/-- The bilingual pattern never matches where the plain pattern's literal
sits: after `**Version` it finds `*`, not `/`. -/
theorem matchAt1_lit2 (Z : List Char) : matchAt1 (lit2 ++ Z) = none := by
  have h1 : stripPref tok1a (lit2 ++ Z) = some ('*' :: '*' :: ':' :: Z) := by
    rw [show lit2 ++ Z = tok1a ++ ('*' :: '*' :: ':' :: Z) by simp [lit2, tok1a]]
    exact stripPref_self_append _ _
  have h2 : List.dropWhile isWS ('*' :: '*' :: ':' :: Z) = '*' :: '*' :: ':' :: Z := by
    rw [List.dropWhile_cons, if_neg (by decide)]
  simp only [matchAt1, h1, h2]
  rfl

/-- The plain pattern never matches where the bilingual pattern's group
starts: after `**Version` it needs `**:` but finds whitespace or `/`. -/
theorem matchAt2_g1full (w1 R : List Char) (hw1 : w1.all isWS = true) :
    matchAt2 (tok1a ++ (w1 ++ ('/' :: R))) = none := by
  apply matchAt2_none_of_strip
  rw [show lit2 = tok1a ++ ['*', '*', ':'] from rfl]
  rw [stripPref_append]
  cases w1 with
  | nil => exact stripPref_cons_ne _ _ _ _ (by decide)
  | cons c t =>
    rw [List.all_cons, Bool.and_eq_true] at hw1
    rw [List.cons_append]
    refine stripPref_cons_ne _ _ _ _ ?_
    intro hc
    rw [hc] at hw1
    exact absurd hw1.1 (by decide)

theorem suffix_head_mem {α : Type} (w l : List α) (c : α) (w0 : List α)
    (hw : w <:+ l) (heq : w = c :: w0) : c ∈ l := by
  subst heq
  exact hw.sublist.subset (List.mem_cons_self c w0)

theorem ws_mem_ne_star (wpart : List Char) (c : Char)
    (hws : wpart.all isWS = true) (hc : c ∈ wpart) : c ≠ '*' := by
  intro h
  rw [List.all_eq_true] at hws
  rw [h] at hc
  exact absurd (hws _ hc) (by decide)

theorem ver_mem_ne_star (ver : List Char) (c : Char) (hver : wfVer ver)
    (hc : c ∈ ver) : c ≠ '*' := by
  intro h
  rw [h] at hc
  rcases wfVer_mem ver hver _ hc with h1 | h1 | h1
  · exact absurd h1 (by decide)
  · exact absurd h1 (by decide)
  · exact absurd h1 (by decide)

theorem wsver_head_ne_star (ws ver w : List Char) (c : Char) (w0 : List Char)
    (hws : ws.all isWS = true) (hver : wfVer ver)
    (hin : w <:+ ws ++ ver) (heq : w = c :: w0) : c ≠ '*' := by
  have hc : c ∈ ws ++ ver := suffix_head_mem w (ws ++ ver) c w0 hin heq
  rcases List.mem_append.mp hc with h | h
  · exact ws_mem_ne_star ws c hws h
  · exact ver_mem_ne_star ver c hver h

/-- Classification of the nonempty suffixes of a substituted block of the
plain pattern. -/
theorem goodG2_suffix_classify (g ver w : List Char) (hG : GOODG2 g)
    (hver : wfVer ver) (hw : w <:+ g ++ ver) (hne : w ≠ []) :
    w = g ++ ver ∨ (∃ w0, w = '*' :: 'V' :: w0) ∨
    (∃ w0, w = '*' :: '*' :: ':' :: w0) ∨ (∃ w0, w = '*' :: ':' :: w0) ∨
    (∃ c w0, w = c :: w0 ∧ c ≠ '*') := by
  obtain ⟨ws, hws, rfl⟩ := hG
  rw [List.append_assoc] at hw
  rcases suffix_append_split w lit2 (ws ++ ver) hw with hin | ⟨w', hw's, hw'ne, rfl⟩
  · right; right; right; right
    cases w with
    | nil => exact absurd rfl hne
    | cons c w0 =>
      exact ⟨c, w0, rfl, wsver_head_ne_star ws ver (c :: w0) c w0 hws hver hin rfl⟩
  · have hmem : w' ∈ lit2.tails := (List.mem_tails _ _).mpr hw's
    fin_cases hmem
    · left
      simp [lit2]
    · right; left
      exact ⟨'e' :: 'r' :: 's' :: 'i' :: 'o' :: 'n' :: '*' :: '*' :: ':' :: (ws ++ ver), by simp⟩
    · right; right; right; right
      exact ⟨'V', 'e' :: 'r' :: 's' :: 'i' :: 'o' :: 'n' :: '*' :: '*' :: ':' :: (ws ++ ver), by simp, by decide⟩
    · right; right; right; right
      exact ⟨'e', 'r' :: 's' :: 'i' :: 'o' :: 'n' :: '*' :: '*' :: ':' :: (ws ++ ver), by simp, by decide⟩
    · right; right; right; right
      exact ⟨'r', 's' :: 'i' :: 'o' :: 'n' :: '*' :: '*' :: ':' :: (ws ++ ver), by simp, by decide⟩
    · right; right; right; right
      exact ⟨'s', 'i' :: 'o' :: 'n' :: '*' :: '*' :: ':' :: (ws ++ ver), by simp, by decide⟩
    · right; right; right; right
      exact ⟨'i', 'o' :: 'n' :: '*' :: '*' :: ':' :: (ws ++ ver), by simp, by decide⟩
    · right; right; right; right
      exact ⟨'o', 'n' :: '*' :: '*' :: ':' :: (ws ++ ver), by simp, by decide⟩
    · right; right; right; right
      exact ⟨'n', '*' :: '*' :: ':' :: (ws ++ ver), by simp, by decide⟩
    · right; right; left
      exact ⟨ws ++ ver, by simp⟩
    · right; right; right; left
      exact ⟨ws ++ ver, by simp⟩
    · right; right; right; right
      exact ⟨':', ws ++ ver, by simp, by decide⟩
    · exact absurd rfl hw'ne

/-- Classification of the nonempty suffixes of a substituted block of the
bilingual pattern. -/
theorem goodG1_suffix_classify (g ver w : List Char) (hG : GOODG1 g)
    (hver : wfVer ver) (hw : w <:+ g ++ ver) (hne : w ≠ []) :
    w = g ++ ver ∨ (∃ w0, w = '*' :: 'V' :: w0) ∨
    (∃ w0, w = '*' :: '*' :: ':' :: w0) ∨ (∃ w0, w = '*' :: ':' :: w0) ∨
    (∃ c w0, w = c :: w0 ∧ c ≠ '*') := by
  obtain ⟨w1, w2, w3, hw1, hw2, hw3, rfl⟩ := hG
  have hw' : w <:+ tok1a ++ (w1 ++ ('/' :: (w2 ++ (tok1b ++ (w3 ++ ver))))) := by
    have hassoc : (tok1a ++ w1 ++ '/' :: (w2 ++ (tok1b ++ w3))) ++ ver =
        tok1a ++ (w1 ++ ('/' :: (w2 ++ (tok1b ++ (w3 ++ ver))))) := by
      simp [List.append_assoc]
    rw [hassoc] at hw
    exact hw
  rcases suffix_append_split w tok1a _ hw' with hinA | ⟨wa, hwas, hwane, rfl⟩
  · rcases suffix_append_split w w1 _ hinA with hinB | ⟨wb, hwbs, hwbne, rfl⟩
    · rcases List.suffix_cons_iff.mp hinB with heq | hinC
      · right; right; right; right
        exact ⟨'/', w2 ++ (tok1b ++ (w3 ++ ver)), heq, by decide⟩
      · rcases suffix_append_split w w2 _ hinC with hinD | ⟨wc, hwcs, hwcne, rfl⟩
        · rcases suffix_append_split w tok1b _ hinD with hinE | ⟨we, hwes, hwene, rfl⟩
          · right; right; right; right
            cases w with
            | nil => exact absurd rfl hne
            | cons c w0 =>
              exact ⟨c, w0, rfl,
                wsver_head_ne_star w3 ver (c :: w0) c w0 hw3 hver hinE rfl⟩
          · have hmem : we ∈ tok1b.tails := (List.mem_tails _ _).mpr hwes
            fin_cases hmem
            · right; right; right; right
              exact ⟨'버', '전' :: '*' :: '*' :: ':' :: (w3 ++ ver), by simp, by decide⟩
            · right; right; right; right
              exact ⟨'전', '*' :: '*' :: ':' :: (w3 ++ ver), by simp, by decide⟩
            · right; right; left
              exact ⟨w3 ++ ver, by simp⟩
            · right; right; right; left
              exact ⟨w3 ++ ver, by simp⟩
            · right; right; right; right
              exact ⟨':', w3 ++ ver, by simp, by decide⟩
            · exact absurd rfl hwene
        · right; right; right; right
          cases wc with
          | nil => exact absurd rfl hwcne
          | cons c t =>
            exact ⟨c, t ++ (tok1b ++ (w3 ++ ver)), by simp,
              ws_mem_ne_star w2 c hw2 (suffix_head_mem _ _ c t hwcs rfl)⟩
    · right; right; right; right
      cases wb with
      | nil => exact absurd rfl hwbne
      | cons c t =>
        exact ⟨c, t ++ ('/' :: (w2 ++ (tok1b ++ (w3 ++ ver)))), by simp,
          ws_mem_ne_star w1 c hw1 (suffix_head_mem _ _ c t hwbs rfl)⟩
  · have hmem : wa ∈ tok1a.tails := (List.mem_tails _ _).mpr hwas
    fin_cases hmem
    · left
      simp [tok1a]
    · right; left
      exact ⟨'e' :: 'r' :: 's' :: 'i' :: 'o' :: 'n' ::
        (w1 ++ ('/' :: (w2 ++ (tok1b ++ (w3 ++ ver))))), by simp⟩
    · right; right; right; right
      exact ⟨'V', 'e' :: 'r' :: 's' :: 'i' :: 'o' :: 'n' ::
        (w1 ++ ('/' :: (w2 ++ (tok1b ++ (w3 ++ ver))))), by simp, by decide⟩
    · right; right; right; right
      exact ⟨'e', 'r' :: 's' :: 'i' :: 'o' :: 'n' ::
        (w1 ++ ('/' :: (w2 ++ (tok1b ++ (w3 ++ ver))))), by simp, by decide⟩
    · right; right; right; right
      exact ⟨'r', 's' :: 'i' :: 'o' :: 'n' ::
        (w1 ++ ('/' :: (w2 ++ (tok1b ++ (w3 ++ ver))))), by simp, by decide⟩
    · right; right; right; right
      exact ⟨'s', 'i' :: 'o' :: 'n' ::
        (w1 ++ ('/' :: (w2 ++ (tok1b ++ (w3 ++ ver))))), by simp, by decide⟩
    · right; right; right; right
      exact ⟨'i', 'o' :: 'n' ::
        (w1 ++ ('/' :: (w2 ++ (tok1b ++ (w3 ++ ver))))), by simp, by decide⟩
    · right; right; right; right
      exact ⟨'o', 'n' ::
        (w1 ++ ('/' :: (w2 ++ (tok1b ++ (w3 ++ ver))))), by simp, by decide⟩
    · right; right; right; right
      exact ⟨'n',
        w1 ++ ('/' :: (w2 ++ (tok1b ++ (w3 ++ ver)))), by simp, by decide⟩
    · exact absurd rfl hwane

/-- A proper nonempty suffix of a plain-pattern block never starts a
plain-pattern match. -/
theorem sfx22 (g w ver Y : List Char) (hG : GOODG2 g) (hver : wfVer ver)
    (hw : w <:+ g ++ ver) (hne : w ≠ []) (hnf : w ≠ g ++ ver) :
    matchAt2 (w ++ Y) = none := by
  rcases goodG2_suffix_classify g ver w hG hver hw hne with
    h | ⟨w0, rfl⟩ | ⟨w0, rfl⟩ | ⟨w0, rfl⟩ | ⟨c, w0, rfl, hc⟩
  · exact absurd h hnf
  · exact matchAt2_starV (w0 ++ Y)
  · exact matchAt2_ssc (w0 ++ Y)
  · exact matchAt2_sc (w0 ++ Y)
  · exact matchAt2_headne c (w0 ++ Y) hc

/-- A proper nonempty suffix of a bilingual-pattern block never starts a
bilingual-pattern match. -/
theorem sfx11 (g w ver Y : List Char) (hG : GOODG1 g) (hver : wfVer ver)
    (hw : w <:+ g ++ ver) (hne : w ≠ []) (hnf : w ≠ g ++ ver) :
    matchAt1 (w ++ Y) = none := by
  rcases goodG1_suffix_classify g ver w hG hver hw hne with
    h | ⟨w0, rfl⟩ | ⟨w0, rfl⟩ | ⟨w0, rfl⟩ | ⟨c, w0, rfl, hc⟩
  · exact absurd h hnf
  · exact matchAt1_starV (w0 ++ Y)
  · exact matchAt1_ssc (w0 ++ Y)
  · exact matchAt1_sc (w0 ++ Y)
  · exact matchAt1_headne c (w0 ++ Y) hc

/-- No nonempty suffix of a plain-pattern block (the full block included)
starts a bilingual-pattern match. -/
theorem sfx21 (g w ver Y : List Char) (hG : GOODG2 g) (hver : wfVer ver)
    (hw : w <:+ g ++ ver) (hne : w ≠ []) :
    matchAt1 (w ++ Y) = none := by
  rcases goodG2_suffix_classify g ver w hG hver hw hne with
    h | ⟨w0, rfl⟩ | ⟨w0, rfl⟩ | ⟨w0, rfl⟩ | ⟨c, w0, rfl, hc⟩
  · obtain ⟨ws, hws, rfl⟩ := hG
    rw [h, show ((lit2 ++ ws) ++ ver) ++ Y = lit2 ++ (ws ++ (ver ++ Y)) by
      simp [List.append_assoc]]
    exact matchAt1_lit2 _
  · exact matchAt1_starV (w0 ++ Y)
  · exact matchAt1_ssc (w0 ++ Y)
  · exact matchAt1_sc (w0 ++ Y)
  · exact matchAt1_headne c (w0 ++ Y) hc

/-- No nonempty suffix of a bilingual-pattern block (the full block
included) starts a plain-pattern match. -/
theorem sfx12 (g w ver Y : List Char) (hG : GOODG1 g) (hver : wfVer ver)
    (hw : w <:+ g ++ ver) (hne : w ≠ []) :
    matchAt2 (w ++ Y) = none := by
  rcases goodG1_suffix_classify g ver w hG hver hw hne with
    h | ⟨w0, rfl⟩ | ⟨w0, rfl⟩ | ⟨w0, rfl⟩ | ⟨c, w0, rfl, hc⟩
  · obtain ⟨w1, w2, w3, hw1, hw2, hw3, rfl⟩ := hG
    rw [h, show ((tok1a ++ w1 ++ '/' :: (w2 ++ (tok1b ++ w3))) ++ ver) ++ Y =
      tok1a ++ (w1 ++ ('/' :: (w2 ++ (tok1b ++ (w3 ++ (ver ++ Y)))))) by
      simp [List.append_assoc]]
    exact matchAt2_g1full w1 _ hw1
  · exact matchAt2_starV (w0 ++ Y)
  · exact matchAt2_ssc (w0 ++ Y)
  · exact matchAt2_sc (w0 ++ Y)
  · exact matchAt2_headne c (w0 ++ Y) hc

/-- A bilingual-pattern block, however extended to the left, is never a
plain-pattern group: the labels differ just before the closing `**:`. -/
theorem nocross12 (g u : List Char) (hG : GOODG1 g) : ¬ GOODG2 (u ++ g) := by
  rintro ⟨ws, hws, hbad⟩
  obtain ⟨w1, w2, w3, -, -, -, rfl⟩ := hG
  have hb : '버' ∈ u ++ (tok1a ++ w1 ++ '/' :: (w2 ++ (tok1b ++ w3))) := by
    simp [tok1b]
  rw [hbad] at hb
  rcases List.mem_append.mp hb with h | h
  · exact absurd h (by decide)
  · rw [List.all_eq_true] at hws
    exact absurd (hws _ h) (by decide)

/-! ## Placeholder machinery -/

theorem containsTok_iff (pat s : List Char) :
    containsTok pat s = true ↔ pat <:+: s := by
  induction s with
  | nil =>
    simp only [containsTok, List.isEmpty_iff]
    constructor
    · intro h
      rw [h]
    · intro h
      exact List.eq_nil_of_infix_nil h
  | cons c cs ih =>
    simp only [containsTok, Bool.or_eq_true, ih, List.isPrefixOf_iff_prefix]
    rw [List.infix_cons_iff]

theorem wfVer_no_brace (w : List Char) (h : wfVer w) : '{' ∉ w := by
  intro hm
  rcases wfVer_mem w h _ hm with h1 | h1 | h1
  · exact absurd h1 (by decide)
  · exact absurd h1 (by decide)
  · exact absurd h1 (by decide)

/-- An occurrence of the placeholder in `A ++ O` with `{` absent from `A`
lies entirely within `O`. -/
theorem infix_transfer (A O : List Char) (hA : '{' ∉ A)
    (h : VERSION_PLACEHOLDER <:+: A ++ O) : VERSION_PLACEHOLDER <:+: O := by
  obtain ⟨spre, spost, heq⟩ := h
  rw [List.append_assoc] at heq
  rcases List.append_eq_append_iff.mp heq with ⟨e, he1, he2⟩ | ⟨e, he1, he2⟩
  · cases e with
    | nil =>
      rw [List.nil_append] at he2
      exact ⟨[], spost, by simpa using he2⟩
    | cons ec et =>
      have hec : ec = '{' := by
        have h' := congrArg (fun l => l.head?) he2
        simp only [VERSION_PLACEHOLDER, List.cons_append, List.head?_cons] at h'
        injection h' with h''
        exact h''.symm
      rw [hec] at he1
      have hbr : '{' ∈ A := by
        rw [he1]
        exact List.mem_append_right spre (List.mem_cons_self '{' et)
      exact absurd hbr hA
  · exact ⟨e, spost, by rw [List.append_assoc, he2]⟩

theorem replF_fuel (rep : List Char) : ∀ n m s, s.length ≤ n → s.length ≤ m →
    replF rep n s = replF rep m s := by
  intro n
  induction n with
  | zero =>
    intro m s hn _
    have : s = [] := by
      cases s with
      | nil => rfl
      | cons c cs => simp at hn
    subst this
    cases m <;> rfl
  | succ n ih =>
    intro m s hn hm
    cases s with
    | nil => cases m <;> rfl
    | cons c cs =>
      cases m with
      | zero => simp at hm
      | succ m' =>
        simp only [List.length_cons] at hn hm
        have hd9 : ((c :: cs).drop VERSION_PLACEHOLDER.length).length =
            cs.length + 1 - 9 := by
          rw [List.length_drop]
          rfl
        by_cases hpre : VERSION_PLACEHOLDER.isPrefixOf (c :: cs) = true
        · simp only [replF, if_pos hpre]
          rw [ih m' _ (by omega) (by omega)]
        · simp only [replF, if_neg hpre]
          rw [ih m' cs (by omega) (by omega)]

theorem replacePH_cons_pref (rep : List Char) (c : Char) (cs : List Char)
    (h : VERSION_PLACEHOLDER.isPrefixOf (c :: cs) = true) :
    replacePH rep (c :: cs) =
      rep ++ replacePH rep ((c :: cs).drop VERSION_PLACEHOLDER.length) := by
  show replF rep (cs.length + 1) (c :: cs) = rep ++
    replF rep ((c :: cs).drop VERSION_PLACEHOLDER.length).length
      ((c :: cs).drop VERSION_PLACEHOLDER.length)
  simp only [replF, if_pos h]
  congr 1
  apply replF_fuel
  · rw [List.length_drop]
    have h9 : VERSION_PLACEHOLDER.length = 9 := rfl
    rw [h9]
    simp only [List.length_cons]
    omega
  · exact Nat.le_refl _

theorem replacePH_cons_not (rep : List Char) (c : Char) (cs : List Char)
    (h : ¬ VERSION_PLACEHOLDER.isPrefixOf (c :: cs) = true) :
    replacePH rep (c :: cs) = c :: replacePH rep cs := by
  show replF rep (cs.length + 1) (c :: cs) = c :: replF rep cs.length cs
  simp only [replF, if_neg h]

theorem prefix_transfer_sub {mAt : List Char → Option (List Char × List Char × List Char)}
    {G : List Char → Prop} {v : List Char} (hP : PatOK mAt G) :
    ∀ n (s q : List Char), s.length ≤ n → '*' ∉ q →
    q <+: patSub mAt v s → q <+: s := by
  intro n
  induction n with
  | zero =>
    intro s q hn hq hpre
    have : s = [] := by
      cases s with
      | nil => rfl
      | cons c cs => simp at hn
    subst this
    exact hpre
  | succ n ih =>
    intro s q hn hq hpre
    cases s with
    | nil => exact hpre
    | cons c cs =>
      simp only [List.length_cons] at hn
      cases hmc : mAt (c :: cs) with
      | none =>
        rw [patSub_cons_none c cs hmc] at hpre
        cases q with
        | nil => exact List.nil_prefix
        | cons qc q' =>
          rw [List.cons_prefix_cons] at hpre
          obtain ⟨rfl, hpre'⟩ := hpre
          rw [List.cons_prefix_cons]
          refine ⟨rfl, ih cs q' (by omega) ?_ hpre'⟩
          intro hm
          exact hq (List.mem_cons_of_mem _ hm)
      | some trip =>
        obtain ⟨g, ver, r⟩ := trip
        obtain ⟨hG, -, -, -⟩ := (hP.char _ _ _ _).mp hmc
        obtain ⟨t', hg⟩ := hP.star g hG
        rw [patSub_cons_some hP c cs g ver r hmc, hg] at hpre
        cases q with
        | nil => exact List.nil_prefix
        | cons qc q' =>
          rw [List.cons_append, List.cons_append, List.cons_prefix_cons] at hpre
          exfalso
          apply hq
          rw [← hpre.1]
          exact List.mem_cons_self qc q'

theorem prefix_transfer_repl (rep : List Char) (hrep : ∃ tl, rep = 'v' :: tl) :
    ∀ n (s q : List Char), s.length ≤ n → 'v' ∉ q →
    q <+: replacePH rep s → q <+: s := by
  intro n
  induction n with
  | zero =>
    intro s q hn hq hpre
    have : s = [] := by
      cases s with
      | nil => rfl
      | cons c cs => simp at hn
    subst this
    exact hpre
  | succ n ih =>
    intro s q hn hq hpre
    cases s with
    | nil => exact hpre
    | cons c cs =>
      simp only [List.length_cons] at hn
      by_cases hc : VERSION_PLACEHOLDER.isPrefixOf (c :: cs) = true
      · rw [replacePH_cons_pref rep c cs hc] at hpre
        cases q with
        | nil => exact List.nil_prefix
        | cons qc q' =>
          obtain ⟨tl, rfl⟩ := hrep
          rw [List.cons_append, List.cons_prefix_cons] at hpre
          exfalso
          apply hq
          rw [← hpre.1]
          exact List.mem_cons_self qc q'
      · rw [replacePH_cons_not rep c cs hc] at hpre
        cases q with
        | nil => exact List.nil_prefix
        | cons qc q' =>
          rw [List.cons_prefix_cons] at hpre
          obtain ⟨rfl, hpre'⟩ := hpre
          rw [List.cons_prefix_cons]
          refine ⟨rfl, ih cs q' (by omega) ?_ hpre'⟩
          intro hm
          exact hq (List.mem_cons_of_mem _ hm)

/-- One pattern pass never creates a placeholder occurrence. -/
theorem patSub_no_ph {mAt : List Char → Option (List Char × List Char × List Char)}
    {G : List Char → Prop} {v : List Char} (hP : PatOK mAt G) (hv : wfVer v) :
    ∀ n (s : List Char), s.length ≤ n →
    ¬ VERSION_PLACEHOLDER <:+: s → ¬ VERSION_PLACEHOLDER <:+: patSub mAt v s := by
  intro n
  induction n with
  | zero =>
    intro s hn hs hinf
    have : s = [] := by
      cases s with
      | nil => rfl
      | cons c cs => simp at hn
    subst this
    exact absurd (List.eq_nil_of_infix_nil hinf) (by decide)
  | succ n ih =>
    intro s hn hs hinf
    cases s with
    | nil => exact absurd (List.eq_nil_of_infix_nil hinf) (by decide)
    | cons c cs =>
      simp only [List.length_cons] at hn
      cases hmc : mAt (c :: cs) with
      | none =>
        rw [patSub_cons_none c cs hmc] at hinf
        rcases List.infix_cons_iff.mp hinf with hpre | htail
        · rw [show VERSION_PLACEHOLDER = '{' :: ['V', 'e', 'r', 's', 'i', 'o', 'n', '}']
            from rfl, List.cons_prefix_cons] at hpre
          obtain ⟨hc, hpre'⟩ := hpre
          have htr := prefix_transfer_sub hP cs.length cs
            ['V', 'e', 'r', 's', 'i', 'o', 'n', '}'] (Nat.le_refl _)
            (by decide) hpre'
          apply hs
          apply List.IsPrefix.isInfix
          rw [show VERSION_PLACEHOLDER = '{' :: ['V', 'e', 'r', 's', 'i', 'o', 'n', '}']
            from rfl, ← hc, List.cons_prefix_cons]
          exact ⟨rfl, htr⟩
        · exact ih cs (by omega)
            (fun hcs => hs (List.infix_cons_iff.mpr (Or.inr hcs))) htail
      | some trip =>
        obtain ⟨g, ver, r⟩ := trip
        obtain ⟨hG, hver, hts, hr⟩ := (hP.char _ _ _ _).mp hmc
        rw [patSub_cons_some hP c cs g ver r hmc] at hinf
        have hbr : '{' ∉ g ++ v := by
          intro hm
          rcases List.mem_append.mp hm with h | h
          · exact absurd h (hP.noBrace g hG)
          · exact absurd h (wfVer_no_brace v hv)
        have hX := infix_transfer (g ++ v) (patSub mAt v r) hbr hinf
        have hrs : ¬ VERSION_PLACEHOLDER <:+: r := by
          intro hrinf
          apply hs
          refine hrinf.trans ?_
          refine List.IsSuffix.isInfix ⟨g ++ ver, ?_⟩
          rw [hts, List.append_assoc]
        have hrlen := patOK_shrink hP c cs g ver r hmc
        exact ih r (by omega) hrs hX

/-- `str.replace` leaves no placeholder occurrence behind. -/
theorem replacePH_no_ph (v : List Char) (hv : wfVer v) :
    ∀ n (s : List Char), s.length ≤ n →
    ¬ VERSION_PLACEHOLDER <:+: replacePH v s := by
  intro n
  induction n with
  | zero =>
    intro s hn hinf
    have : s = [] := by
      cases s with
      | nil => rfl
      | cons c cs => simp at hn
    subst this
    exact absurd (List.eq_nil_of_infix_nil hinf) (by decide)
  | succ n ih =>
    intro s hn hinf
    cases s with
    | nil => exact absurd (List.eq_nil_of_infix_nil hinf) (by decide)
    | cons c cs =>
      simp only [List.length_cons] at hn
      by_cases hc : VERSION_PLACEHOLDER.isPrefixOf (c :: cs) = true
      · rw [replacePH_cons_pref v c cs hc] at hinf
        have hbr : '{' ∉ v := wfVer_no_brace v hv
        have hX := infix_transfer v _ hbr hinf
        have hd9 : ((c :: cs).drop VERSION_PLACEHOLDER.length).length =
            cs.length + 1 - 9 := by
          rw [List.length_drop]
          rfl
        exact ih ((c :: cs).drop VERSION_PLACEHOLDER.length) (by omega) hX
      · rw [replacePH_cons_not v c cs hc] at hinf
        rcases List.infix_cons_iff.mp hinf with hpre | htail
        · obtain ⟨tl, hvtl⟩ := wfVer_cons v hv
          rw [show VERSION_PLACEHOLDER = '{' :: ['V', 'e', 'r', 's', 'i', 'o', 'n', '}']
            from rfl, List.cons_prefix_cons] at hpre
          obtain ⟨hceq, hpre'⟩ := hpre
          have htr := prefix_transfer_repl v ⟨tl, hvtl⟩ cs.length cs
            ['V', 'e', 'r', 's', 'i', 'o', 'n', '}'] (Nat.le_refl _)
            (by decide) hpre'
          apply hc
          rw [List.isPrefixOf_iff_prefix]
          rw [show VERSION_PLACEHOLDER = '{' :: ['V', 'e', 'r', 's', 'i', 'o', 'n', '}']
            from rfl, ← hceq, List.cons_prefix_cons]
          exact ⟨rfl, htr⟩
        · exact ih cs (by omega) htail

/-! ## Idempotence of the full updater -/

theorem noMismatch1_out (v s : List Char) (hv : wfVer v) :
    ∀ t, t <:+ patSub matchAt1 v s →
    ∀ g ver r, matchAt1 t = some (g, ver, r) → ver = v :=
  lemA_same patOK1 hv
    (fun g w Y hG hw hne hnf => sfx11 g w v Y hG hv hw hne hnf)
    s.length s (Nat.le_refl _)

theorem noMismatch2_out (v s : List Char) (hv : wfVer v) :
    ∀ t, t <:+ patSub matchAt2 v s →
    ∀ g ver r, matchAt2 t = some (g, ver, r) → ver = v :=
  lemA_same patOK2 hv
    (fun g w Y hG hw hne hnf => sfx22 g w v Y hG hv hw hne hnf)
    s.length s (Nat.le_refl _)

theorem noMismatch1_kept (v s : List Char) (hv : wfVer v)
    (hin : ∀ t, t <:+ s → ∀ g ver r, matchAt1 t = some (g, ver, r) → ver = v) :
    ∀ t, t <:+ patSub matchAt2 v s →
    ∀ g ver r, matchAt1 t = some (g, ver, r) → ver = v :=
  lemA_cross patOK2 patOK1 hv
    (fun g w Y hG hw hne => sfx21 g w v Y hG hv hw hne)
    s.length s (Nat.le_refl _) hin

/-- The output of `updateContent` is a fixed point of `updateContent`. -/
theorem updateContent_fixed (v s : List Char) (hv : wfVer v) :
    updateContent v (updateContent v s) = updateContent v s := by
  have hnoph_w : ¬ VERSION_PLACEHOLDER <:+:
      (if containsTok VERSION_PLACEHOLDER s then replacePH v s else s) := by
    by_cases hcont : containsTok VERSION_PLACEHOLDER s = true
    · rw [if_pos hcont]
      exact replacePH_no_ph v hv s.length s (Nat.le_refl _)
    · rw [if_neg hcont]
      intro hinf
      exact hcont ((containsTok_iff _ _).mpr hinf)
  set w := if containsTok VERSION_PLACEHOLDER s then replacePH v s else s with hw
  set x := patSub matchAt1 v w with hx
  set t := patSub matchAt2 v x with ht
  have hnoph_x : ¬ VERSION_PLACEHOLDER <:+: x :=
    patSub_no_ph patOK1 hv w.length w (Nat.le_refl _) hnoph_w
  have hnoph_t : ¬ VERSION_PLACEHOLDER <:+: t :=
    patSub_no_ph patOK2 hv x.length x (Nat.le_refl _) hnoph_x
  have hnm1x := noMismatch1_out v w hv
  have hnm1t : ∀ u, u <:+ t → ∀ g ver r, matchAt1 u = some (g, ver, r) → ver = v := by
    rw [ht]
    exact noMismatch1_kept v x hv (by rw [hx]; exact hnm1x)
  have hnm2t : ∀ u, u <:+ t → ∀ g ver r, matchAt2 u = some (g, ver, r) → ver = v := by
    rw [ht]
    exact noMismatch2_out v x hv
  have hteq : updateContent v s = t := rfl
  have hcf : containsTok VERSION_PLACEHOLDER t = false := by
    rcases Bool.eq_false_or_eq_true (containsTok VERSION_PLACEHOLDER t) with h | h
    · exact absurd ((containsTok_iff _ _).mp h) hnoph_t
    · exact h
  have hid1 : patSub matchAt1 v t = t :=
    patSub_id_of_mismatchFree patOK1 t.length t (Nat.le_refl _) hnm1t
  have hid2 : patSub matchAt2 v t = t :=
    patSub_id_of_mismatchFree patOK2 t.length t (Nat.le_refl _) hnm2t
  rw [hteq]
  show (let s1 := if containsTok VERSION_PLACEHOLDER t then replacePH v t else t
    let s2 := patSub matchAt1 v s1
    patSub matchAt2 v s2) = t
  rw [hcf]
  simp only [Bool.false_eq_true, if_false]
  rw [hid1, hid2]

/-! ## Decidable side conditions -/

theorem noMatchSuf_iff (mAt : List Char → Option (List Char × List Char × List Char))
    (s : List Char) :
    noMatchSuf mAt s = true ↔ ∀ t, t <:+ s → mAt t = none := by
  unfold noMatchSuf
  rw [List.all_eq_true]
  constructor
  · intro h t ht
    have := h t ((List.mem_tails _ _).mpr ht)
    rwa [Option.isNone_iff_eq_none] at this
  · intro h t ht
    rw [Option.isNone_iff_eq_none]
    exact h t ((List.mem_tails _ _).mp ht)

theorem onlyMatchAt_iff (s frag : List Char) :
    onlyMatchAt s frag = true ↔
      ∀ t, t <:+ s → t ≠ frag → matchAt1 t = none ∧ matchAt2 t = none := by
  unfold onlyMatchAt
  rw [List.all_eq_true]
  constructor
  · intro h t ht hne
    have := h t ((List.mem_tails _ _).mpr ht)
    rw [Bool.or_eq_true, beq_iff_eq, Bool.and_eq_true, Option.isNone_iff_eq_none,
      Option.isNone_iff_eq_none] at this
    rcases this with h1 | h2
    · exact absurd h1 hne
    · exact h2
  · intro h t ht
    rw [Bool.or_eq_true, beq_iff_eq, Bool.and_eq_true, Option.isNone_iff_eq_none,
      Option.isNone_iff_eq_none]
    by_cases he : t = frag
    · exact Or.inl he
    · exact Or.inr (h t ((List.mem_tails _ _).mp ht) he)

theorem append_left_ne (a' F : List Char) (h : a' ≠ []) : a' ++ F ≠ F := by
  intro he
  have hl := congrArg List.length he
  rw [List.length_append] at hl
  have : a'.length = 0 := by omega
  exact h (List.length_eq_zero.mp this)

/-! ## One substitution step over a described text -/

section StepLemmas

variable {mAt : List Char → Option (List Char × List Char × List Char)}
variable {G : List Char → Prop}
variable {v : List Char}

/-- Substituting a text that opens with a clean gap and one fragment. -/
theorem patSub_step (hP : PatOK mAt G) (a g ver0 b : List Char)
    (hG : G g) (hver0 : wfVer ver0) (hb : hnd b = true)
    (ha : ∀ a', a' <:+ a → a' ≠ [] → mAt (a' ++ (g ++ (ver0 ++ b))) = none) :
    patSub mAt v (a ++ (g ++ (ver0 ++ b))) = a ++ (g ++ (v ++ patSub mAt v b)) := by
  rw [patSub_append_nomatch a _ ha]
  congr 1
  obtain ⟨t', hgc⟩ := hP.star g hG
  have hm : mAt (g ++ (ver0 ++ b)) = some (g, ver0, b) :=
    (hP.char _ _ _ _).mpr ⟨hG, hver0, rfl, hb⟩
  have hcons : g ++ (ver0 ++ b) = '*' :: (t' ++ (ver0 ++ b)) := by
    rw [hgc]
    rfl
  rw [hcons] at hm
  rw [hcons, patSub_cons_some hP '*' (t' ++ (ver0 ++ b)) g ver0 b hm]
  rw [List.append_assoc]

/-- Substituting a text with a clean gap, one fragment, and a clean tail. -/
theorem patSub_single (hP : PatOK mAt G) (a g ver0 b : List Char)
    (hG : G g) (hver0 : wfVer ver0) (hb : hnd b = true)
    (ha : ∀ a', a' <:+ a → a' ≠ [] → mAt (a' ++ (g ++ (ver0 ++ b))) = none)
    (hbn : ∀ t, t <:+ b → mAt t = none) :
    patSub mAt v (a ++ (g ++ (ver0 ++ b))) = a ++ (g ++ (v ++ b)) := by
  rw [patSub_step hP a g ver0 b hG hver0 hb ha]
  rw [patSub_id_of_mismatchFree hP b.length b (Nat.le_refl _)
    fun t ht g' ver' r' hm => absurd hm (by rw [hbn t ht]; simp)]

end StepLemmas

/-! ## Global substitution over chunked texts -/

theorem patSub2_chunks (v : List Char) :
    ∀ L c, chunks2OK L c = true →
    patSub matchAt2 v (chunks2Text L c) = chunks2Out v L c := by
  intro L
  induction L with
  | nil =>
    intro c h
    have hnm := (noMatchSuf_iff matchAt2 c).mp h
    show patSub matchAt2 v c = c
    exact patSub_id_of_mismatchFree patOK2 c.length c (Nat.le_refl _)
      fun t ht g' ver' r' hm => absurd hm (by rw [hnm t ht]; simp)
  | cons ch L ih =>
    obtain ⟨gap, ws, ver⟩ := ch
    intro c h
    simp only [chunks2OK, Bool.and_eq_true] at h
    obtain ⟨⟨⟨⟨hws, hver⟩, hhnd⟩, hgap⟩, hok⟩ := h
    rw [decide_eq_true_iff] at hver
    show patSub matchAt2 v
      (gap ++ ((lit2 ++ ws) ++ (ver ++ chunks2Text L c))) = _
    rw [patSub_step patOK2 gap (lit2 ++ ws) ver (chunks2Text L c)
      ⟨ws, hws, rfl⟩ hver hhnd ?_]
    · rw [ih c hok]
      rfl
    · intro a' ha' hane
      rw [List.all_eq_true] at hgap
      have := hgap a' ((List.mem_tails _ _).mpr ha')
      rw [Bool.or_eq_true, List.isEmpty_iff, Option.isNone_iff_eq_none] at this
      rcases this with h1 | h1
      · exact absurd h1 hane
      · exact h1

theorem patSub1_chunks (v : List Char) :
    ∀ L c, chunks1OK L c = true →
    patSub matchAt1 v (chunks1Text L c) = chunks1Out v L c := by
  intro L
  induction L with
  | nil =>
    intro c h
    have hnm := (noMatchSuf_iff matchAt1 c).mp h
    show patSub matchAt1 v c = c
    exact patSub_id_of_mismatchFree patOK1 c.length c (Nat.le_refl _)
      fun t ht g' ver' r' hm => absurd hm (by rw [hnm t ht]; simp)
  | cons ch L ih =>
    obtain ⟨gap, w1, w2, w3, ver⟩ := ch
    intro c h
    simp only [chunks1OK, Bool.and_eq_true] at h
    obtain ⟨⟨⟨⟨⟨⟨hw1, hw2⟩, hw3⟩, hver⟩, hhnd⟩, hgap⟩, hok⟩ := h
    rw [decide_eq_true_iff] at hver
    show patSub matchAt1 v
      (gap ++ (mkG1 w1 w2 w3 ++ (ver ++ chunks1Text L c))) = _
    rw [patSub_step patOK1 gap (mkG1 w1 w2 w3) ver (chunks1Text L c)
      ⟨w1, w2, w3, hw1, hw2, hw3, rfl⟩ hver hhnd ?_]
    · rw [ih c hok]
      rfl
    · intro a' ha' hane
      rw [List.all_eq_true] at hgap
      have := hgap a' ((List.mem_tails _ _).mpr ha')
      rw [Bool.or_eq_true, List.isEmpty_iff, Option.isNone_iff_eq_none] at this
      rcases this with h1 | h1
      · exact absurd h1 hane
      · exact h1

/-! ## The updater on a file with a single annotation fragment -/

theorem updateContent_annotation (v g ver0 a b : List Char) (hv : wfVer v)
    (hver0 : wfVer ver0) (hg : GOODG1 g ∨ GOODG2 g) (hb : hnd b = true)
    (hph : containsTok VERSION_PLACEHOLDER (a ++ (g ++ (ver0 ++ b))) = false)
    (honly : onlyMatchAt (a ++ (g ++ (ver0 ++ b))) (g ++ (ver0 ++ b)) = true) :
    updateContent v (a ++ (g ++ (ver0 ++ b))) = a ++ (g ++ (v ++ b)) := by
  have honly' := (onlyMatchAt_iff (a ++ (g ++ (ver0 ++ b))) (g ++ (ver0 ++ b))).mp honly
  have hstar : ∃ t', g = '*' :: t' := by
    rcases hg with h | h
    · exact patOK1.star g h
    · exact patOK2.star g h
  have hglen : 1 ≤ g.length := by
    obtain ⟨t', h⟩ := hstar
    rw [h]
    simp
  have hver0len : 1 ≤ ver0.length := by
    obtain ⟨tl, htl⟩ := wfVer_cons ver0 hver0
    rw [htl]
    simp
  have hgap1 : ∀ a', a' <:+ a → a' ≠ [] →
      matchAt1 (a' ++ (g ++ (ver0 ++ b))) = none := fun a' ha' hane =>
    (honly' (a' ++ (g ++ (ver0 ++ b)))
      (suffix_append_right a' a _ ha') (append_left_ne a' _ hane)).1
  have hgap2 : ∀ a', a' <:+ a → a' ≠ [] →
      matchAt2 (a' ++ (g ++ (ver0 ++ b))) = none := fun a' ha' hane =>
    (honly' (a' ++ (g ++ (ver0 ++ b)))
      (suffix_append_right a' a _ ha') (append_left_ne a' _ hane)).2
  have hbsub : b <:+ a ++ (g ++ (ver0 ++ b)) := by
    refine ⟨(a ++ g) ++ ver0, ?_⟩
    simp [List.append_assoc]
  have hbn : ∀ t, t <:+ b → matchAt1 t = none ∧ matchAt2 t = none := by
    intro t ht
    refine honly' t (ht.trans hbsub) ?_
    intro he
    have h1 := List.IsSuffix.length_le ht
    rw [he] at h1
    simp only [List.length_append] at h1
    omega
  have hif : (if containsTok VERSION_PLACEHOLDER (a ++ (g ++ (ver0 ++ b))) then
      replacePH v (a ++ (g ++ (ver0 ++ b))) else (a ++ (g ++ (ver0 ++ b)))) =
      a ++ (g ++ (ver0 ++ b)) := by
    rw [hph]
    simp
  rcases hg with hG1 | hG2
  · have hsub1 : patSub matchAt1 v (a ++ (g ++ (ver0 ++ b))) =
        a ++ (g ++ (v ++ b)) :=
      patSub_single patOK1 a g ver0 b hG1 hver0 hb hgap1 (fun t ht => (hbn t ht).1)
    have hsub2 : patSub matchAt2 v (a ++ (g ++ (v ++ b))) =
        a ++ (g ++ (v ++ b)) := by
      apply patSub_id_of_mismatchFree patOK2 _ _ (Nat.le_refl _)
      intro t ht gx verx rx hm
      have hre : a ++ (g ++ (v ++ b)) = a ++ ((g ++ v) ++ b) := by
        simp [List.append_assoc]
      rw [hre] at ht
      rcases suffix_append_split t a ((g ++ v) ++ b) ht with hin | ⟨w, hw, hwne, rfl⟩
      · rcases suffix_append_split t (g ++ v) b hin with hinb | ⟨w', hw', hw'ne, rfl⟩
        · exact absurd hm (by rw [(hbn t hinb).2]; simp)
        · exact absurd hm (by rw [sfx12 g w' v b hG1 hv hw' hw'ne]; simp)
      · have hw2 : matchAt2 ((w ++ g) ++ (v ++ b)) = some (gx, verx, rx) := by
          rw [show (w ++ g) ++ (v ++ b) = w ++ ((g ++ v) ++ b) by
            simp [List.append_assoc]]
          exact hm
        rcases core patOK2 hv (w ++ g) b gx verx rx hb hw2 with
          ⟨z, hz, hndz⟩ | ⟨-, hvx, -⟩
        · obtain ⟨hGx, hwx, -, -⟩ := (patOK2.char _ _ _ _).mp hw2
          have hm2 : matchAt2 (w ++ (g ++ (ver0 ++ b))) =
              some (gx, verx, z ++ (ver0 ++ b)) := by
            rw [patOK2.char]
            refine ⟨hGx, hwx, ?_, ?_⟩
            · rw [show w ++ (g ++ (ver0 ++ b)) = (w ++ g) ++ (ver0 ++ b) by
                simp [List.append_assoc], hz]
              simp [List.append_assoc]
            · cases z with
              | nil => exact hnd_of_wf ver0 b hver0
              | cons zc zt => exact hndz
          have hnone := (honly' (w ++ (g ++ (ver0 ++ b)))
            (suffix_append_right w a _ hw) (append_left_ne w _ hwne)).2
          rw [hnone] at hm2
          simp at hm2
        · exact hvx
    show patSub matchAt2 v (patSub matchAt1 v (if containsTok VERSION_PLACEHOLDER
      (a ++ (g ++ (ver0 ++ b))) then replacePH v (a ++ (g ++ (ver0 ++ b)))
      else (a ++ (g ++ (ver0 ++ b))))) = a ++ (g ++ (v ++ b))
    rw [hif, hsub1, hsub2]
  · have hsub1 : patSub matchAt1 v (a ++ (g ++ (ver0 ++ b))) =
        a ++ (g ++ (ver0 ++ b)) := by
      apply patSub_id_of_mismatchFree patOK1 _ _ (Nat.le_refl _)
      intro t ht gx verx rx hm
      by_cases he : t = g ++ (ver0 ++ b)
      · have hnone : matchAt1 (g ++ (ver0 ++ b)) = none := by
          rw [show g ++ (ver0 ++ b) = (g ++ ver0) ++ b by simp [List.append_assoc]]
          exact sfx21 g (g ++ ver0) ver0 b hG2 hver0 (List.suffix_refl _) (by
            obtain ⟨t', hgc⟩ := hstar
            rw [hgc]
            simp)
        rw [he, hnone] at hm
        simp at hm
      · exact absurd hm (by rw [(honly' t ht he).1]; simp)
    have hsub2 : patSub matchAt2 v (a ++ (g ++ (ver0 ++ b))) =
        a ++ (g ++ (v ++ b)) :=
      patSub_single patOK2 a g ver0 b hG2 hver0 hb hgap2 (fun t ht => (hbn t ht).2)
    show patSub matchAt2 v (patSub matchAt1 v (if containsTok VERSION_PLACEHOLDER
      (a ++ (g ++ (ver0 ++ b))) then replacePH v (a ++ (g ++ (ver0 ++ b)))
      else (a ++ (g ++ (ver0 ++ b))))) = a ++ (g ++ (v ++ b))
    rw [hif, hsub1, hsub2]

/-- Claim C1, counterexample: on a file holding both the placeholder and an
annotation line, the updater alters more than the placeholder occurrences
(the annotation's version is rewritten too), so the run is not plain
placeholder replacement. -/
theorem c1_counterexample :
    updateContent ("v1.2.3".toList) ("{Version} **Version**: v9.9.9".toList) ≠
      replacePH ("v1.2.3".toList) ("{Version} **Version**: v9.9.9".toList) := by
  decide

/-- Claim C1 (amended): for a valid version and a file containing the
placeholder, if the placeholder-substituted text has no annotation-pattern
match, the updater returns exactly the text with every `{Version}`
occurrence replaced and nothing else altered. -/
theorem c1_placeholder_replacement (v s : List Char) (hv : wfVer v)
    (hc : containsTok VERSION_PLACEHOLDER s = true)
    (h1 : noMatchSuf matchAt1 (replacePH v s) = true)
    (h2 : noMatchSuf matchAt2 (replacePH v s) = true) :
    updateContent v s = replacePH v s := by
  have hn1 := (noMatchSuf_iff matchAt1 (replacePH v s)).mp h1
  have hn2 := (noMatchSuf_iff matchAt2 (replacePH v s)).mp h2
  show patSub matchAt2 v (patSub matchAt1 v
    (if containsTok VERSION_PLACEHOLDER s then replacePH v s else s)) =
    replacePH v s
  rw [if_pos hc]
  rw [patSub_id_of_mismatchFree patOK1 _ _ (Nat.le_refl _)
    fun t ht g' ver' r' hm => absurd hm (by rw [hn1 t ht]; simp)]
  rw [patSub_id_of_mismatchFree patOK2 _ _ (Nat.le_refl _)
    fun t ht g' ver' r' hm => absurd hm (by rw [hn2 t ht]; simp)]

theorem c1_placeholder_replacement_witness :
    updateContent ("v1.2.3".toList) ("intro {Version} done".toList) =
      replacePH ("v1.2.3".toList) ("intro {Version} done".toList) :=
  c1_placeholder_replacement _ _ (by decide) (by decide) (by decide) (by decide)

/-- Claim C2, counterexample: a file holding the annotation fragment and a
placeholder does not keep its surrounding text untouched — the placeholder
is replaced as well. -/
theorem c2_counterexample :
    updateContent ("v2.3.4".toList) ("{Version} **Version**: v1.0.0".toList) ≠
      ("{Version} **Version**: v2.3.4".toList) := by
  decide

/-- Claim C2 (amended): on a file `a ++ g ++ ver0 ++ b` whose only
placeholder/annotation content is the single annotation fragment
`g ++ ver0` (plain or bilingual label `g`, old version `ver0`), the updater
replaces exactly the numeric suffix, preserving the label `g` and the
surrounding text `a`, `b`. -/
theorem updateContent_annotation_only (v g ver0 a b : List Char) (hv : wfVer v)
    (hver0 : wfVer ver0) (hg : GOODG1 g ∨ GOODG2 g) (hb : hnd b = true)
    (hph : containsTok VERSION_PLACEHOLDER (a ++ (g ++ (ver0 ++ b))) = false)
    (honly : onlyMatchAt (a ++ (g ++ (ver0 ++ b))) (g ++ (ver0 ++ b)) = true) :
    updateContent v (a ++ (g ++ (ver0 ++ b))) = a ++ (g ++ (v ++ b)) :=
  updateContent_annotation v g ver0 a b hv hver0 hg hb hph honly

theorem updateContent_annotation_only_witness :
    updateContent ("v2.3.4".toList)
      ("pre ".toList ++ ("**Version**: ".toList ++
        ("v1.0.0".toList ++ " post".toList))) =
      "pre ".toList ++ ("**Version**: ".toList ++
        ("v2.3.4".toList ++ " post".toList)) :=
  updateContent_annotation_only _ _ _ _ _ (by decide) (by decide)
    (Or.inr ⟨[' '], by decide, by decide⟩) (by decide) (by decide) (by decide)

/-- Claim C3: the updater is idempotent — running `update_markdown` again
with the same version on the content produced by a first run yields the
same content and reports no change. -/
theorem c3_update_markdown_idempotent (v s : List Char) (hv : wfVer v) :
    update_markdown v (update_markdown v s).1 =
      ((update_markdown v s).1, false) := by
  show (updateContent v (updateContent v s),
      updateContent v (updateContent v s) != updateContent v s) =
    (updateContent v s, false)
  rw [updateContent_fixed v s hv]
  simp

theorem c3_update_markdown_idempotent_witness :
    update_markdown ("v1.2.3".toList)
        (update_markdown ("v1.2.3".toList)
          ("x {Version} y **Version**: v0.0.1 z".toList)).1 =
      ((update_markdown ("v1.2.3".toList)
          ("x {Version} y **Version**: v0.0.1 z".toList)).1, false) :=
  c3_update_markdown_idempotent _ _ (by decide)

/-- Claim C6: a file with no placeholder and no annotation match is left
byte-for-byte identical and reported unchanged; in general a write (the
`true` flag) happens only when the transformed content differs. -/
theorem c6_noop_unchanged (v s : List Char)
    (h1 : containsTok VERSION_PLACEHOLDER s = false)
    (h2 : noMatchSuf matchAt1 s = true)
    (h3 : noMatchSuf matchAt2 s = true) :
    update_markdown v s = (s, false) ∧
      ∀ u : List Char, (update_markdown v u).2 = true →
        (update_markdown v u).1 ≠ u := by
  have hn1 := (noMatchSuf_iff matchAt1 s).mp h2
  have hn2 := (noMatchSuf_iff matchAt2 s).mp h3
  have hcontent : updateContent v s = s := by
    show patSub matchAt2 v (patSub matchAt1 v
      (if containsTok VERSION_PLACEHOLDER s then replacePH v s else s)) = s
    rw [h1]
    simp only [Bool.false_eq_true, if_false]
    rw [patSub_id_of_mismatchFree patOK1 _ _ (Nat.le_refl _)
      fun t ht g' ver' r' hm => absurd hm (by rw [hn1 t ht]; simp)]
    rw [patSub_id_of_mismatchFree patOK2 _ _ (Nat.le_refl _)
      fun t ht g' ver' r' hm => absurd hm (by rw [hn2 t ht]; simp)]
  constructor
  · show (updateContent v s, updateContent v s != s) = (s, false)
    rw [hcontent]
    simp
  · intro u hu
    show updateContent v u ≠ u
    exact bne_iff_ne.mp hu

theorem c6_noop_unchanged_witness :
    update_markdown ("v1.2.3".toList) ("plain text, no targets".toList) =
        ("plain text, no targets".toList, false) ∧
      ∀ u : List Char,
        (update_markdown ("v1.2.3".toList) u).2 = true →
        (update_markdown ("v1.2.3".toList) u).1 ≠ u :=
  c6_noop_unchanged _ _ (by decide) (by decide) (by decide)

/-- Claim C10: the annotation substitution is global and
position-insensitive — on a text described by chunks (gaps free of matches,
each fragment carrying arbitrary whitespace in the label), every fragment's
version is replaced, for both patterns. -/
theorem c10_global_substitution (v : List Char) :
    (∀ L c, chunks2OK L c = true →
      patSub matchAt2 v (chunks2Text L c) = chunks2Out v L c) ∧
    (∀ L c, chunks1OK L c = true →
      patSub matchAt1 v (chunks1Text L c) = chunks1Out v L c) :=
  ⟨patSub2_chunks v, patSub1_chunks v⟩

theorem c10_global_substitution_witness :
    patSub matchAt2 ("v2.3.4".toList)
      (chunks2Text [("doc ".toList, ['\t'], "v1.0.0".toList),
        (" mid ".toList, [' ', ' '], "v7.7.7".toList)] (" tail".toList)) =
    chunks2Out ("v2.3.4".toList)
      [("doc ".toList, ['\t'], "v1.0.0".toList),
        (" mid ".toList, [' ', ' '], "v7.7.7".toList)] (" tail".toList) :=
  (c10_global_substitution _).1 _ _ (by decide)
